import Mathlib

/-!
Verification of the estimation engine of the HouseBuild-Estimator app
(`app.py`): the quantity resolver (`find_match`), the BOQ builder
(`build_boq`), the projection-page cost rollup, and the affordability
scheduler loop.  Monetary and quantity values of the BOQ stage are
modelled as rationals; scheduler values, which involve a real-valued
power, are modelled as reals extended with an infinity (`WithTop ℝ`)
mirroring the float infinity the source produces.
-/

namespace HB

/-! ## String helpers (Python `str.lower` and the `in` substring test) -/

/-- Python `s.lower()`, restricted to the ASCII mapping of `Char.toLower`. -/
def lower (s : String) : String := ⟨s.data.map Char.toLower⟩

/-- Predicate `leadEq p l` is true when `p` is an initial run of `l`. -/
def leadEq : List Char → List Char → Bool
  | [], _ => true
  | _ :: _, [] => false
  | a :: as, b :: bs => a == b && leadEq as bs

/-- Predicate `hasRun p l` is true when `p` occurs contiguously inside `l`. -/
def hasRun (p : List Char) : List Char → Bool
  | [] => p.isEmpty
  | c :: rest => leadEq p (c :: rest) || hasRun p rest

/-- Python `pat in hay` on strings: `pat` occurs as a substring of `hay`. -/
def strContains (hay pat : String) : Bool := hasRun pat.data hay.data

/-! ## Python `dict` as an insertion-ordered association list -/

/-- Dictionary read, `d.get(k)` / `d[k]`: value at the first (only) entry
whose key is `k`. -/
def alookup {β : Type} : List (String × β) → String → Option β
  | [], _ => none
  | p :: rest, k => if p.1 = k then some p.2 else alookup rest k

/-- Python `d.get(k, dflt)`. -/
def dget {β : Type} (m : List (String × β)) (k : String) (dflt : β) : β :=
  (alookup m k).getD dflt

/-- Dictionary write `d[k] = v`: replace the value at the existing entry for
`k` (keeping its position), or append a new entry at the end. -/
def dset {β : Type} : List (String × β) → String → β → List (String × β)
  | [], k, v => [(k, v)]
  | p :: rest, k, v => if p.1 = k then (k, v) :: rest else p :: dset rest k v

/-! ## Data model (`materials_db` records and room templates) -/

/-- One record of the materials catalog as loaded from storage.  A price or
consumption cell that does not parse as a number (`pd.to_numeric(...,
errors="coerce")` yields NaN) is modelled as `none`. -/
structure RawMaterial where
  item : String
  unit : String
  price : Option ℚ
  phase : String
  consumption_per_m2 : Option ℚ
deriving DecidableEq, Repr

/-- A catalog record after the multiplier-scaling step of `build_boq`. -/
structure Material where
  item : String
  unit : String
  price : ℚ
  phase : String
  consumption_per_m2 : ℚ
deriving DecidableEq, Repr

/-- A room template: floor area per instance and fixture quantities. -/
structure RoomTemplate where
  area_m2 : ℚ
  fixtures : List (String × ℚ)
deriving DecidableEq, Repr

/-- One output row of `build_boq`. -/
structure BOQRow where
  item : String
  unit : String
  total_qty : ℚ
  unit_price : ℚ
  total_cost : ℚ
  phase : String
deriving DecidableEq, Repr

/-- The static alias table `FIXTURE_ITEM_MAP` of the source. -/
def FIXTURE_ITEM_MAP : List (String × String) :=
  [ ("Internal door", "Internal door (each)")
  , ("Window (each)", "Window (each)")
  , ("Light fixture", "Light fixture (each)")
  , ("Toilet (WC) (each)", "Toilet (WC) (each)")
  , ("Wash basin (each)", "Wash basin (each)")
  , ("Shower set (each)", "Shower set (each)")
  , ("Kitchen sink (each)", "Kitchen sink (each)")
  , ("Kitchen cabinet (per lm)", "Kitchen cabinet (per lm)")
  , ("Gate (each)", "Gate (each)")
  ]

/-! ## BOQ builder (`build_boq`, app.py lines 186-243) -/

/-- The multiplier-scaling of one record:
`price = to_numeric(price).fillna(0) * location_multiplier` and
`consumption_per_m2 = to_numeric(consumption_per_m2).fillna(0) * quality_multiplier`. -/
def scaleRecord (m : RawMaterial) (quality_multiplier location_multiplier : ℚ) : Material :=
  { item := m.item
  , unit := m.unit
  , price := m.price.getD 0 * location_multiplier
  , phase := m.phase
  , consumption_per_m2 := m.consumption_per_m2.getD 0 * quality_multiplier }

/-- Step 1 of `build_boq`: scale the whole catalog. -/
def scaleMaterials (ms : List RawMaterial) (quality_multiplier location_multiplier : ℚ) :
    List Material :=
  ms.map (fun m => scaleRecord m quality_multiplier location_multiplier)

/-- Computation of `total_area`: sum of `cnt * templates.get(room, \x7b\x7d).get("area_m2", 0.0)`. -/
def total_area (counts : List (String × ℚ)) (templates : List (String × RoomTemplate)) : ℚ :=
  (counts.map (fun rc => rc.2 * (((alookup templates rc.1).map RoomTemplate.area_m2).getD 0))).sum

/-- The seeding loop `qty_map[row["item"]] = row["consumption_per_m2"] * total_area`
over all catalog rows. -/
def seedMap (mat : List Material) (area : ℚ) : List (String × ℚ) :=
  mat.foldl (fun m r => dset m r.item (r.consumption_per_m2 * area)) []

/-- Dict comprehension `item_lookup = \x7bs.lower(): s for s in mat["item"].tolist()\x7d`. -/
def itemLookup (items : List String) : List (String × String) :=
  items.foldl (fun m s => dset m (lower s) s) []

/-- The substring step of `find_match` (app.py lines 208-210): the first
lookup-dict entry whose key contains the lowercased label, indexed back
into the dict. -/
def substep (item_lookup : List (String × String)) (key : String) : Option String :=
  match item_lookup.find? (fun p => strContains p.1 (lower key)) with
  | some p => alookup item_lookup p.1
  | none => none

/-- Steps 2-3 of `find_match` (app.py lines 206-210): exact case-insensitive
lookup, falling back to the substring scan. -/
def exactOrSub (item_lookup : List (String × String)) (key : String) : Option String :=
  match alookup item_lookup (lower key) with
  | some v => some v
  | none => substep item_lookup key

/-- Function `find_match` (app.py lines 202-211): alias table first, then exact
case-insensitive lookup, then first substring hit over the lookup dict. -/
def find_match (item_lookup : List (String × String)) (key : String) : Option String :=
  match alookup FIXTURE_ITEM_MAP key with
  | some mapped =>
    if mapped ≠ "" then
      match alookup item_lookup (lower mapped) with
      | some v => some v
      | none => exactOrSub item_lookup key
    else exactOrSub item_lookup key
  | none => exactOrSub item_lookup key

/-- The key a fixture's quantity is accumulated under: the resolved catalog
item, or the synthesized `"<label> (user)"` placeholder. -/
def bumpKey (item_lookup : List (String × String)) (f : String) : String :=
  match find_match item_lookup f with
  | some m => m
  | none => f ++ " (user)"

/-- Lookup `tpl.get("fixtures", \x7b\x7d)` for the template of room `r`. -/
def roomFixtures (templates : List (String × RoomTemplate)) (r : String) : List (String × ℚ) :=
  ((alookup templates r).map RoomTemplate.fixtures).getD []

/-- Inner body of the fixture loop: skip non-positive quantities, otherwise
`qty_map[key] = qty_map.get(key, 0.0) + fq * cnt`. -/
def bumpFix (item_lookup : List (String × String)) (cnt : ℚ)
    (qm : List (String × ℚ)) (fkq : String × ℚ) : List (String × ℚ) :=
  if fkq.2 ≤ 0 then qm
  else dset qm (bumpKey item_lookup fkq.1)
    (dget qm (bumpKey item_lookup fkq.1) 0 + fkq.2 * cnt)

/-- Outer body of the fixture loop: skip rooms with non-positive count,
otherwise fold the room's fixtures. -/
def roomStep (item_lookup : List (String × String)) (templates : List (String × RoomTemplate))
    (qm : List (String × ℚ)) (rc : String × ℚ) : List (String × ℚ) :=
  if rc.2 ≤ 0 then qm
  else (roomFixtures templates rc.1).foldl (bumpFix item_lookup rc.2) qm

/-- The whole fixture loop of `build_boq` (app.py lines 213-223). -/
def addFix (item_lookup : List (String × String)) (templates : List (String × RoomTemplate))
    (counts : List (String × ℚ)) (qm : List (String × ℚ)) : List (String × ℚ) :=
  counts.foldl (roomStep item_lookup templates) qm

/-- Row construction (app.py lines 225-237): catalog rows carry their
`(unit, price, phase)`; unknown items get `("each", 0, "Misc")`. -/
def mkRows (mat : List Material) (qm : List (String × ℚ)) : List BOQRow :=
  qm.map (fun iq =>
    match mat.find? (fun r => r.item = iq.1) with
    | some r =>
      { item := iq.1, unit := r.unit, total_qty := iq.2, unit_price := r.price
      , total_cost := iq.2 * r.price, phase := r.phase }
    | none =>
      { item := iq.1, unit := "each", total_qty := iq.2, unit_price := 0
      , total_cost := iq.2 * 0, phase := "Misc" })

/-- The pandas group key `(item, unit, unit_price, phase)`. -/
def rowKey (r : BOQRow) : String × String × ℚ × String := (r.item, r.unit, r.unit_price, r.phase)

/-- Lexicographic order on group keys (pandas `groupby` default `sort=True`). -/
def keyLe (a b : String × String × ℚ × String) : Prop :=
  a.1 < b.1 ∨ (a.1 = b.1 ∧ (a.2.1 < b.2.1 ∨ (a.2.1 = b.2.1 ∧
    (a.2.2.1 < b.2.2.1 ∨ (a.2.2.1 = b.2.2.1 ∧ a.2.2.2 ≤ b.2.2.2)))))

instance (a b : String × String × ℚ × String) : Decidable (keyLe a b) := by
  unfold keyLe; infer_instance

/-- Sorted insertion used to model the sorted group keys. -/
def insertSorted (a : String × String × ℚ × String) :
    List (String × String × ℚ × String) → List (String × String × ℚ × String)
  | [] => [a]
  | b :: rest => if keyLe a b then a :: b :: rest else b :: insertSorted a rest

/-- Sort the distinct group keys ascending. -/
def sortKeys (l : List (String × String × ℚ × String)) : List (String × String × ℚ × String) :=
  l.foldr insertSorted []

/-- The final `groupby(["item","unit","unit_price","phase"]).agg(sum)` of
`build_boq`, preceded by the empty-frame early return. -/
def aggregate (rows : List BOQRow) : List BOQRow :=
  if rows.isEmpty then rows
  else
    (sortKeys ((rows.map rowKey).dedup)).map (fun k =>
      { item := k.1, unit := k.2.1, unit_price := k.2.2.1, phase := k.2.2.2
      , total_qty := ((rows.filter (fun r => rowKey r = k)).map BOQRow.total_qty).sum
      , total_cost := ((rows.filter (fun r => rowKey r = k)).map BOQRow.total_cost).sum })

/-- Function `build_boq(counts, templates, materials_df, quality_multiplier,
location_multiplier)` (app.py lines 186-243). -/
def build_boq (counts : List (String × ℚ)) (templates : List (String × RoomTemplate))
    (materials : List RawMaterial) (quality_multiplier location_multiplier : ℚ) : List BOQRow :=
  let mat := scaleMaterials materials quality_multiplier location_multiplier
  let area := total_area counts templates
  let qm0 := seedMap mat area
  let il := itemLookup (mat.map Material.item)
  let qm := addFix il templates counts qm0
  aggregate (mkRows mat qm)

/-! ## Cost rollup (Projection page, app.py lines 459-467) -/

/-- Rollup base: `base_total = boq["total_cost"].sum()`. -/
def base_total (boq : List BOQRow) : ℚ := (boq.map BOQRow.total_cost).sum

/-- Rollup total: `grand_total = base_total + extra_cost + pro_cost + cont_cost` where each
addend is `base_total` times the corresponding percentage. -/
def grand_total (boq : List BOQRow) (extra_margin professional_fees contingency : ℚ) : ℚ :=
  let bt := base_total boq
  bt + bt * extra_margin + bt * professional_fees + bt * contingency

/-! ## Spec-side resolver (for the refinement claim about `find_match`) -/

/-- The resolver exactly as the specification words it: alias table first
(the aliased name compared to catalog items case-insensitively), then the
label itself case-insensitively, then the first catalog item — in catalog
iteration order — whose lowercased name contains the lowercased label. -/
def resolveSpec (items : List String) (key : String) : Option String :=
  match (alookup FIXTURE_ITEM_MAP key).bind
      (fun m => items.find? (fun s => lower s = lower m)) with
  | some s => some s
  | none =>
    match items.find? (fun s => lower s = lower key) with
    | some s => some s
    | none => items.find? (fun s => strContains (lower s) (lower key))

/-! ## Contribution sums (to state what the fixture loop accumulates) -/

/-- Contribution of one fixture entry of a room with count `cnt` to the
quantity accumulated under key `k`. -/
def fixContrib (item_lookup : List (String × String)) (cnt : ℚ) (k : String)
    (fkq : String × ℚ) : ℚ :=
  if fkq.2 ≤ 0 then 0
  else if bumpKey item_lookup fkq.1 = k then fkq.2 * cnt else 0

/-- Contribution of one `(room, count)` pair to the quantity under key `k`. -/
def roomContrib (item_lookup : List (String × String)) (templates : List (String × RoomTemplate))
    (k : String) (rc : String × ℚ) : ℚ :=
  if rc.2 ≤ 0 then 0
  else ((roomFixtures templates rc.1).map (fixContrib item_lookup rc.2 k)).sum

/-- Total fixture-driven quantity accumulated under key `k`. -/
def contribTotal (item_lookup : List (String × String))
    (templates : List (String × RoomTemplate)) (counts : List (String × ℚ)) (k : String) : ℚ :=
  (counts.map (roomContrib item_lookup templates k)).sum

/-- The quantity the claim ascribes to an unmatched fixture label `fk`:
fixture quantity times room count, accumulated across counted rooms. -/
def userQty (templates : List (String × RoomTemplate)) (counts : List (String × ℚ))
    (fk : String) : ℚ :=
  (counts.map (fun rc =>
    if rc.2 ≤ 0 then 0
    else ((roomFixtures templates rc.1).map (fun fkq =>
      if fkq.2 ≤ 0 then 0 else if fkq.1 = fk then fkq.2 * rc.2 else 0)).sum)).sum

/-! ## Affordability scheduler (app.py lines 698-716)

Values that can become the float `inf` of the source are modelled in
`WithTop ℝ`; the source can in addition produce float NaN for the
(unused, never displayed as finite) `inflated` field of a phase that
follows an infinitely delayed one (`0.0 * inf` in IEEE arithmetic) —
that corner carries `⊤` here. -/

/-- One emitted row of the scheduler loop (`results.append(...)`). -/
structure FundingEntry where
  phase : String
  base : ℝ
  after_upfront : ℝ
  inflated : WithTop ℝ
  months : WithTop ℝ
  start : WithTop ℝ
  endM : WithTop ℝ

/-- Multiplication of a possibly-infinite value by a finite scalar on the left. -/
noncomputable def wmul (c : ℝ) (x : WithTop ℝ) : WithTop ℝ :=
  WithTop.map (fun y => c * y) x

/-- Division of a possibly-infinite value by a finite scalar. -/
noncomputable def wdiv (x : WithTop ℝ) (c : ℝ) : WithTop ℝ :=
  WithTop.map (fun y => y / c) x

/-- Power `b ** e` for a possibly-infinite exponent, following IEEE float `pow`
on an infinite exponent for bases `b ≥ 0`. -/
noncomputable def epow (b : ℝ) (e : WithTop ℝ) : WithTop ℝ :=
  WithTop.recTopCoe (if 1 < b then ⊤ else if b = 1 then 1 else 0)
    (fun y => ((Real.rpow b y : ℝ) : WithTop ℝ)) e

/-- The upfront-cash application of one phase: returns
`(base_cost_after, new remaining_upfront)`. -/
noncomputable def upfrontStep (remaining_upfront base_cost : ℝ) : ℝ × ℝ :=
  if remaining_upfront > 0 then
    let applied := min remaining_upfront base_cost
    (max 0 (base_cost - applied), remaining_upfront - applied)
  else (base_cost, remaining_upfront)

/-- One iteration of the scheduler loop: the `FundingEntry` emitted for
phase `ph` from the carried state (`remaining_upfront`, `cum_month`). -/
noncomputable def mkEntry (phase_tot : List (String × ℝ)) (inflation_pct monthly_savings : ℝ)
    (ph : String) (remaining_upfront : ℝ) (cum_month : WithTop ℝ) : FundingEntry :=
  let base_cost := (alookup phase_tot ph).getD 0
  let step := upfrontStep remaining_upfront base_cost
  let years_until_start := WithTop.map (fun m => m / 12) cum_month
  let infl_factor := epow (1 + inflation_pct / 100) years_until_start
  let inflated := wmul step.1 infl_factor
  let months_needed := if monthly_savings > 0 then wdiv inflated monthly_savings else ⊤
  let start := cum_month
  { phase := ph, base := base_cost, after_upfront := step.1, inflated := inflated
  , months := months_needed, start := start, endM := start + months_needed }

/-- The scheduler loop, with the carried state (`remaining_upfront`,
`cum_month`) passed explicitly: emit the entry, then continue with the
decremented upfront cash and `cum_month = end`. -/
noncomputable def scheduleAux (phase_tot : List (String × ℝ))
    (inflation_pct monthly_savings : ℝ) :
    List String → ℝ → WithTop ℝ → List FundingEntry
  | [], _, _ => []
  | ph :: rest, remaining_upfront, cum_month =>
    mkEntry phase_tot inflation_pct monthly_savings ph remaining_upfront cum_month
      :: scheduleAux phase_tot inflation_pct monthly_savings rest
          (upfrontStep remaining_upfront ((alookup phase_tot ph).getD 0)).2
          (mkEntry phase_tot inflation_pct monthly_savings ph remaining_upfront cum_month).endM

/-- The whole scheduler: `remaining_upfront = one_time`, `cum_month = 0.0`,
then one `FundingEntry` per phase of the build order. -/
noncomputable def schedule (phase_tot : List (String × ℝ)) (phase_order : List String)
    (one_time inflation_pct monthly_savings : ℝ) : List FundingEntry :=
  scheduleAux phase_tot inflation_pct monthly_savings phase_order one_time 0

/-- The base costs the scheduler reads, in build order. -/
noncomputable def phaseCosts (phase_tot : List (String × ℝ)) (phase_order : List String) :
    List ℝ :=
  phase_order.map (fun ph => (alookup phase_tot ph).getD 0)

/-- The successive values of `remaining_upfront`, starting with the initial
one (one more entry than there are phases). -/
noncomputable def residuals : List ℝ → ℝ → List ℝ
  | [], rem => [rem]
  | c :: rest, rem => rem :: residuals rest (upfrontStep rem c).2

/-- The value of `remaining_upfront` after the whole loop. -/
noncomputable def finalRem (costs : List ℝ) (rem : ℝ) : ℝ :=
  costs.foldl (fun r c => (upfrontStep r c).2) rem

/-- The chain property of a schedule: each entry starts where told, ends at
`start + months`, and hands its end to the next entry. -/
def chained : WithTop ℝ → List FundingEntry → Prop
  | _, [] => True
  | c, e :: rest => e.start = c ∧ e.endM = e.start + e.months ∧ chained e.endM rest

/-- The start and end months of a schedule, interleaved in emission order. -/
def timePoints : List FundingEntry → List (WithTop ℝ)
  | [] => []
  | e :: rest => e.start :: e.endM :: timePoints rest

/-- Once an entry's end month is infinite, every later entry's start and end
months are infinite. -/
def topProp : List FundingEntry → Prop
  | [] => True
  | e :: rest =>
    (e.endM = ⊤ → ∀ e' ∈ rest, e'.start = ⊤ ∧ e'.endM = ⊤) ∧ topProp rest

/-! ## Dictionary lemmas -/

theorem alookup_dset_self {β : Type} (m : List (String × β)) (k : String) (v : β) :
    alookup (dset m k v) k = some v := by
  induction m with
  | nil => simp [dset, alookup]
  | cons p rest ih =>
    by_cases h : p.1 = k
    · simp [dset, h, alookup]
    · simp [dset, h, alookup, ih]

theorem alookup_dset_ne {β : Type} (m : List (String × β)) {k k' : String} (v : β)
    (h : k' ≠ k) : alookup (dset m k v) k' = alookup m k' := by
  have hk : ¬k = k' := fun he => h he.symm
  induction m with
  | nil => simp [dset, alookup, hk]
  | cons p rest ih =>
    by_cases hp : p.1 = k
    · have hp' : ¬p.1 = k' := by rw [hp]; exact hk
      simp [dset, hp, alookup, hk, hp']
    · by_cases hp' : p.1 = k'
      · simp [dset, hp, alookup, hp', h]
      · simp [dset, hp, alookup, hp', ih]

theorem dset_ne_nil {β : Type} (m : List (String × β)) (k : String) (v : β) :
    dset m k v ≠ [] := by
  cases m with
  | nil => simp [dset]
  | cons p rest =>
    by_cases h : p.1 = k <;> simp [dset, h]

theorem mem_dset {β : Type} {m : List (String × β)} {k : String} {v : β} {p : String × β}
    (h : p ∈ dset m k v) : p ∈ m ∨ p = (k, v) := by
  induction m with
  | nil => simp [dset] at h; simp [h]
  | cons q rest ih =>
    by_cases hq : q.1 = k
    · simp [dset, hq] at h
      rcases h with h | h
      · right; simp [h]
      · left; simp [h]
    · simp [dset, hq] at h
      rcases h with h | h
      · left; simp [h]
      · rcases ih h with h' | h'
        · left; simp [h']
        · right; exact h'

theorem keys_dset {β : Type} (m : List (String × β)) (k : String) (v : β) :
    (dset m k v).map Prod.fst = m.map Prod.fst ∨
      (dset m k v).map Prod.fst = m.map Prod.fst ++ [k] := by
  induction m with
  | nil => right; simp [dset]
  | cons p rest ih =>
    by_cases h : p.1 = k
    · left; simp [dset, h]
    · rcases ih with ih | ih
      · left; simp [dset, h, ih]
      · right; simp [dset, h, ih]

theorem mem_keys_dset_self {β : Type} (m : List (String × β)) (k : String) (v : β) :
    k ∈ (dset m k v).map Prod.fst := by
  induction m with
  | nil => simp [dset]
  | cons p rest ih =>
    by_cases h : p.1 = k <;> simp [dset, h, ih]

theorem mem_keys_dset_of_mem {β : Type} {m : List (String × β)} {k' : String}
    (k : String) (v : β) (h : k' ∈ m.map Prod.fst) : k' ∈ (dset m k v).map Prod.fst := by
  rcases keys_dset m k v with hk | hk <;> simp [hk, h]

theorem alookup_eq_none_iff {β : Type} (m : List (String × β)) (k : String) :
    alookup m k = none ↔ k ∉ m.map Prod.fst := by
  induction m with
  | nil => simp [alookup]
  | cons p rest ih =>
    by_cases h : p.1 = k
    · simp [alookup, h]
    · have h' : ¬k = p.1 := fun he => h he.symm
      simp [alookup, h, ih, h']

theorem alookup_mem {β : Type} {m : List (String × β)} {k : String} {v : β}
    (h : alookup m k = some v) : (k, v) ∈ m := by
  induction m with
  | nil => simp [alookup] at h
  | cons p rest ih =>
    by_cases hp : p.1 = k
    · simp only [alookup, if_pos hp, Option.some.injEq] at h
      have : p = (k, v) := by
        cases p; simp_all
      simp [this]
    · simp only [alookup, if_neg hp] at h
      exact List.mem_cons_of_mem _ (ih h)

theorem alookup_of_mem_nodup {β : Type} {m : List (String × β)} {k : String} {v : β}
    (hn : (m.map Prod.fst).Nodup) (h : (k, v) ∈ m) : alookup m k = some v := by
  induction m with
  | nil => simp at h
  | cons p rest ih =>
    simp only [List.map_cons, List.nodup_cons] at hn
    rcases List.mem_cons.mp h with h' | h'
    · simp [← h', alookup]
    · have hk : p.1 ≠ k := by
        intro he
        exact hn.1 (he ▸ (List.mem_map_of_mem Prod.fst h'))
      simp [alookup, hk, ih hn.2 h']

theorem keys_dset_of_some {β : Type} {m : List (String × β)} {k : String} {v' : β} (v : β)
    (h : alookup m k = some v') : (dset m k v).map Prod.fst = m.map Prod.fst := by
  induction m with
  | nil => simp [alookup] at h
  | cons p rest ih =>
    by_cases hp : p.1 = k
    · simp [dset, hp]
    · simp [alookup, hp] at h
      simp [dset, hp, ih h]

theorem keys_dset_of_none {β : Type} {m : List (String × β)} {k : String} (v : β)
    (h : alookup m k = none) : (dset m k v).map Prod.fst = m.map Prod.fst ++ [k] := by
  induction m with
  | nil => simp [dset]
  | cons p rest ih =>
    by_cases hp : p.1 = k
    · simp [alookup, hp] at h
    · simp [alookup, hp] at h
      simp [dset, hp, ih h]

theorem keys_nodup_dset {β : Type} {m : List (String × β)} (k : String) (v : β)
    (hn : (m.map Prod.fst).Nodup) : ((dset m k v).map Prod.fst).Nodup := by
  cases h : alookup m k with
  | some v' => rw [keys_dset_of_some v h]; exact hn
  | none =>
    rw [keys_dset_of_none v h]
    rw [alookup_eq_none_iff] at h
    simp [List.nodup_append, hn, h]

theorem dset_eq_append {β : Type} {m : List (String × β)} {k : String} (v : β)
    (h : alookup m k = none) : dset m k v = m ++ [(k, v)] := by
  induction m with
  | nil => simp [dset]
  | cons p rest ih =>
    by_cases hp : p.1 = k
    · simp [alookup, hp] at h
    · simp [alookup, hp] at h
      simp [dset, hp, ih h]

theorem alookup_append {β : Type} (m m' : List (String × β)) (k : String) :
    alookup (m ++ m') k =
      match alookup m k with
      | some v => some v
      | none => alookup m' k := by
  induction m with
  | nil => simp [alookup]
  | cons p rest ih =>
    by_cases hp : p.1 = k
    · simp [alookup, hp]
    · simp [alookup, hp, ih]

/-! ## Emptiness of the BOQ -/

theorem foldl_bumpFix_eq_nil_iff (il : List (String × String)) (cnt : ℚ)
    (l : List (String × ℚ)) :
    ∀ qm, l.foldl (bumpFix il cnt) qm = [] ↔ qm = [] ∧ ∀ f ∈ l, f.2 ≤ 0 := by
  induction l with
  | nil => intro qm; simp
  | cons f rest ih =>
    intro qm
    rw [List.foldl_cons, ih]
    by_cases hf : f.2 ≤ 0
    · simp [bumpFix, hf, List.forall_mem_cons]
    · constructor
      · intro h
        exact absurd (by simpa [bumpFix, hf] using h.1) (dset_ne_nil _ _ _)
      · intro h
        exact absurd (h.2 f (by simp)) hf

theorem roomStep_eq_nil_iff (il : List (String × String))
    (tps : List (String × RoomTemplate)) (qm : List (String × ℚ)) (rc : String × ℚ) :
    roomStep il tps qm rc = [] ↔
      qm = [] ∧ (rc.2 ≤ 0 ∨ ∀ f ∈ roomFixtures tps rc.1, f.2 ≤ 0) := by
  unfold roomStep
  by_cases hc : rc.2 ≤ 0
  · simp [hc]
  · rw [if_neg hc, foldl_bumpFix_eq_nil_iff]
    simp [hc]

theorem addFix_eq_nil_iff (il : List (String × String))
    (tps : List (String × RoomTemplate)) (counts : List (String × ℚ)) :
    ∀ qm, addFix il tps counts qm = [] ↔
      qm = [] ∧ ∀ rc ∈ counts, rc.2 ≤ 0 ∨ ∀ f ∈ roomFixtures tps rc.1, f.2 ≤ 0 := by
  unfold addFix
  induction counts with
  | nil => intro qm; simp
  | cons rc rest ih =>
    intro qm
    rw [List.foldl_cons, ih, roomStep_eq_nil_iff]
    simp only [List.forall_mem_cons]
    tauto

theorem seedMap_eq_nil_iff (mat : List Material) (area : ℚ) :
    seedMap mat area = [] ↔ mat = [] := by
  unfold seedMap
  suffices h : ∀ (ms : List Material) (m : List (String × ℚ)),
      ms.foldl (fun m r => dset m r.item (r.consumption_per_m2 * area)) m = [] ↔
        ms = [] ∧ m = [] by
    simp [h]
  intro ms
  induction ms with
  | nil => intro m; simp
  | cons r rest ih =>
    intro m
    rw [List.foldl_cons, ih]
    simp [dset_ne_nil]

theorem insertSorted_ne_nil (a : String × String × ℚ × String)
    (l : List (String × String × ℚ × String)) : insertSorted a l ≠ [] := by
  cases l with
  | nil => simp [insertSorted]
  | cons b rest =>
    unfold insertSorted
    by_cases h : keyLe a b <;> simp [h]

theorem sortKeys_eq_nil_iff (l : List (String × String × ℚ × String)) :
    sortKeys l = [] ↔ l = [] := by
  cases l with
  | nil => simp [sortKeys]
  | cons a rest => simp [sortKeys, insertSorted_ne_nil]

theorem aggregate_eq_nil_iff (rows : List BOQRow) : aggregate rows = [] ↔ rows = [] := by
  by_cases h : rows = []
  · simp [aggregate, h]
  · have hne : rows.isEmpty = false := by
      cases rows with
      | nil => exact absurd rfl h
      | cons a l => rfl
    simp [aggregate, hne, sortKeys_eq_nil_iff, List.dedup_eq_nil, h]

theorem build_boq_eq_nil_iff (counts : List (String × ℚ))
    (templates : List (String × RoomTemplate)) (materials : List RawMaterial) (q l : ℚ) :
    build_boq counts templates materials q l = [] ↔
      materials = [] ∧
        ∀ rc ∈ counts, 0 < rc.2 → ∀ f ∈ roomFixtures templates rc.1, f.2 ≤ 0 := by
  unfold build_boq
  rw [aggregate_eq_nil_iff]
  simp only [mkRows, List.map_eq_nil_iff]
  rw [addFix_eq_nil_iff, seedMap_eq_nil_iff]
  simp only [scaleMaterials, List.map_eq_nil_iff]
  constructor
  · rintro ⟨hm, hfix⟩
    refine ⟨hm, fun rc hrc hpos => ?_⟩
    rcases hfix rc hrc with h' | h'
    · exact absurd hpos (not_lt.mpr h')
    · exact h'
  · rintro ⟨hm, hfix⟩
    refine ⟨hm, fun rc hrc => ?_⟩
    by_cases hpos : 0 < rc.2
    · exact Or.inr (hfix rc hrc hpos)
    · exact Or.inl (not_lt.mp hpos)

/-! ## Rollup and scaling facts -/

theorem scaleRecord_price_none {m : RawMaterial} (q l : ℚ) (h : m.price = none) :
    (scaleRecord m q l).price = 0 := by
  simp [scaleRecord, h]

theorem scaleRecord_cons_none {m : RawMaterial} (q l : ℚ) (h : m.consumption_per_m2 = none) :
    (scaleRecord m q l).consumption_per_m2 = 0 := by
  simp [scaleRecord, h]

/-! ## Claim theorems: C2, C3, C4 -/

/-- C2 (amended): the BOQ builder's output is empty iff the materials catalog
is empty and no positively-counted room has a fixture with positive quantity
(room counts alone do not matter: a non-empty catalog always yields rows,
with zero quantities when the counts are all zero).  The builder is total,
zero and negative room counts contribute no fixture quantities (the loop
skips them), though a negative count does subtract area. -/
theorem C2_boq_empty_iff (counts : List (String × ℚ))
    (templates : List (String × RoomTemplate)) (materials : List RawMaterial) (q l : ℚ) :
    (build_boq counts templates materials q l = [] ↔
      materials = [] ∧
        ∀ rc ∈ counts, 0 < rc.2 → ∀ f ∈ roomFixtures templates rc.1, f.2 ≤ 0) ∧
    (∀ (il : List (String × String)) (tps : List (String × RoomTemplate))
        (qm : List (String × ℚ)) (rc : String × ℚ), rc.2 ≤ 0 → roomStep il tps qm rc = qm) :=
  ⟨build_boq_eq_nil_iff counts templates materials q l,
   fun _ _ _ _ h => by simp [roomStep, h]⟩

/-- C2 counterexample: with a non-empty catalog and an empty `room_counts`
the output is not empty (the claim says it would be), and a negative room
count contributes `count * area < 0` to `total_area`, not zero. -/
theorem C2_counterexample :
    build_boq [] [] [⟨"Cement (50kg bag)", "bag", some 125, "Foundation", some (2/5)⟩] 1 1
      ≠ [] ∧
    total_area [("Master Bedroom", -1)] [("Master Bedroom", ⟨12, []⟩)] = -12 := by
  constructor
  · rw [Ne, build_boq_eq_nil_iff]
    simp
  · norm_num [total_area, alookup]

/-- C3 (amended): in the scaling step only non-numeric price/consumption
values are coerced to 0; scaled values are non-negative whenever the numeric
source values and the multipliers are non-negative.  (Negative numeric
source values are not coerced and scale as they are.) -/
theorem C3_scaling_coercion (materials : List RawMaterial) (q l : ℚ)
    (hq : 0 ≤ q) (hl : 0 ≤ l)
    (hok : ∀ m ∈ materials, (∀ p, m.price = some p → 0 ≤ p) ∧
      (∀ c, m.consumption_per_m2 = some c → 0 ≤ c)) :
    (∀ m ∈ materials, m.price = none → (scaleRecord m q l).price = 0) ∧
    (∀ m ∈ materials, m.consumption_per_m2 = none →
      (scaleRecord m q l).consumption_per_m2 = 0) ∧
    ∀ s ∈ scaleMaterials materials q l, 0 ≤ s.price ∧ 0 ≤ s.consumption_per_m2 := by
  refine ⟨fun m _ h => by simp [scaleRecord, h],
          fun m _ h => by simp [scaleRecord, h], ?_⟩
  intro s hs
  simp only [scaleMaterials, List.mem_map] at hs
  obtain ⟨m, hm, rfl⟩ := hs
  constructor
  · cases hp : m.price with
    | none => simp [scaleRecord, hp]
    | some p =>
      simp only [scaleRecord, hp, Option.getD_some]
      exact mul_nonneg ((hok m hm).1 p hp) hl
  · cases hc : m.consumption_per_m2 with
    | none => simp [scaleRecord, hc]
    | some c =>
      simp only [scaleRecord, hc, Option.getD_some]
      exact mul_nonneg ((hok m hm).2 c hc) hq

/-- C3 witness: a catalog with one well-formed and one malformed record,
unit multipliers. -/
theorem C3_scaling_coercion_witness :
    (0 : ℚ) ≤ 1 ∧
    (∀ m ∈ [RawMaterial.mk "Cement (50kg bag)" "bag" (some 125) "Foundation" (some (2/5)),
            RawMaterial.mk "Bad" "u" none "Misc" none],
      (∀ p, m.price = some p → 0 ≤ p) ∧ (∀ c, m.consumption_per_m2 = some c → 0 ≤ c)) ∧
    ∀ s ∈ scaleMaterials
        [RawMaterial.mk "Cement (50kg bag)" "bag" (some 125) "Foundation" (some (2/5)),
         RawMaterial.mk "Bad" "u" none "Misc" none] 1 1,
      0 ≤ s.price ∧ 0 ≤ s.consumption_per_m2 := by
  refine ⟨by norm_num, ?_, ?_⟩
  · intro m hm
    rcases List.mem_cons.mp hm with h | h
    · subst h
      constructor
      · intro p hp
        simp at hp
        rw [← hp]; norm_num
      · intro c hc
        simp at hc
        rw [← hc]; norm_num
    · simp at h
      subst h
      constructor
      · intro p hp; simp at hp
      · intro c hc; simp at hc
  · exact (C3_scaling_coercion _ 1 1 (by norm_num) (by norm_num)
      (by
        intro m hm
        rcases List.mem_cons.mp hm with h | h
        · subst h
          refine ⟨fun p hp => ?_, fun c hc => ?_⟩
          · simp at hp; rw [← hp]; norm_num
          · simp at hc; rw [← hc]; norm_num
        · simp at h
          subst h
          exact ⟨fun p hp => by simp at hp, fun c hc => by simp at hc⟩)).2.2

/-- C3 counterexample: a negative catalog price is not coerced to 0; with a
positive location multiplier the scaled price stays negative, contradicting
the claim that no scaled price is negative. -/
theorem C3_counterexample :
    (scaleMaterials [⟨"X", "u", some (-5), "Misc", some 0⟩] 1 1).map Material.price = [-5] ∧
    ¬(0 : ℚ) ≤ -5 := by
  constructor
  · norm_num [scaleMaterials, scaleRecord]
  · norm_num

/-- C4 (confirmed): the rollup is additive — `grand_total` equals
`base_total * (1 + margin + fees + contingency)` for every BOQ and all
percentages, and the spec's Scenario B instance (base 1000, 10%, 6%, 10%)
yields 1260. -/
theorem C4_rollup_additive :
    (∀ (boq : List BOQRow) (m f c : ℚ),
      grand_total boq m f c = base_total boq * (1 + m + f + c)) ∧
    base_total [⟨"Base", "ls", 1, 1000, 1000, "Misc"⟩] = 1000 ∧
    grand_total [⟨"Base", "ls", 1, 1000, 1000, "Misc"⟩] (10/100) (6/100) (10/100) = 1260 := by
  refine ⟨fun boq m f c => by unfold grand_total; ring, ?_, ?_⟩
  · norm_num [base_total]
  · norm_num [grand_total, base_total]

/-! ## Linearity of the area-driven quantities (C8) -/

theorem dset_map_snd {β γ : Type} (g : β → γ) (m : List (String × β)) (k : String) (v : β) :
    dset (m.map (fun p => (p.1, g p.2))) k (g v) = (dset m k v).map (fun p => (p.1, g p.2)) := by
  induction m with
  | nil => simp [dset]
  | cons p rest ih =>
    by_cases h : p.1 = k <;> simp [dset, h, ih]

theorem seedMap_double (mat : List Material) (area : ℚ) :
    seedMap mat (2 * area) = (seedMap mat area).map (fun p => (p.1, 2 * p.2)) := by
  unfold seedMap
  suffices h : ∀ (ms : List Material) (m : List (String × ℚ)),
      ms.foldl (fun m r => dset m r.item (r.consumption_per_m2 * (2 * area)))
          (m.map (fun p => (p.1, 2 * p.2)))
        = (ms.foldl (fun m r => dset m r.item (r.consumption_per_m2 * area)) m).map
            (fun p => (p.1, 2 * p.2)) by
    simpa using h mat []
  intro ms
  induction ms with
  | nil => intro m; simp
  | cons r rest ih =>
    intro m
    rw [List.foldl_cons, List.foldl_cons]
    have harith : r.consumption_per_m2 * (2 * area) = 2 * (r.consumption_per_m2 * area) := by
      ring
    rw [harith, dset_map_snd (fun x => 2 * x) m r.item (r.consumption_per_m2 * area)]
    exact ih (dset m r.item (r.consumption_per_m2 * area))

theorem total_area_double (counts : List (String × ℚ))
    (templates : List (String × RoomTemplate)) :
    total_area (counts.map (fun rc => (rc.1, 2 * rc.2))) templates
      = 2 * total_area counts templates := by
  induction counts with
  | nil => simp [total_area]
  | cons rc rest ih =>
    simp only [total_area, List.map_cons, List.sum_cons] at ih ⊢
    rw [ih]
    ring

/-- C8 (confirmed): `total_area` is linear in the room counts — doubling
every count doubles `total_area`, and the area-driven quantity map seeded
from the scaled catalog doubles pointwise (same items, doubled values). -/
theorem C8_area_linear (counts : List (String × ℚ))
    (templates : List (String × RoomTemplate)) (materials : List RawMaterial) (q l : ℚ) :
    total_area (counts.map (fun rc => (rc.1, 2 * rc.2))) templates
      = 2 * total_area counts templates ∧
    seedMap (scaleMaterials materials q l)
        (total_area (counts.map (fun rc => (rc.1, 2 * rc.2))) templates)
      = (seedMap (scaleMaterials materials q l) (total_area counts templates)).map
          (fun p => (p.1, 2 * p.2)) := by
  refine ⟨total_area_double counts templates, ?_⟩
  rw [total_area_double, seedMap_double]

/-! ## The resolver against the spec's description (C1) -/

theorem itemLookup_nodup_eq {items : List String} (hn : (items.map lower).Nodup) :
    itemLookup items = items.map (fun s => (lower s, s)) := by
  unfold itemLookup
  suffices h : ∀ (its : List String) (m : List (String × String)),
      (its.map lower).Nodup → (∀ s ∈ its, alookup m (lower s) = none) →
      its.foldl (fun m s => dset m (lower s) s) m = m ++ its.map (fun s => (lower s, s)) by
    simpa using h items [] hn (fun s _ => rfl)
  intro its
  induction its with
  | nil => intro m _ _; simp
  | cons s rest ih =>
    intro m hn' hnone
    simp only [List.map_cons, List.nodup_cons] at hn'
    rw [List.foldl_cons, dset_eq_append s (hnone s (by simp))]
    rw [ih (m ++ [(lower s, s)]) hn'.2 ?_]
    · simp
    · intro t ht
      rw [alookup_append]
      rw [hnone t (List.mem_cons_of_mem _ ht)]
      have hne : ¬lower s = lower t := by
        intro he
        exact hn'.1 (he ▸ List.mem_map_of_mem lower ht)
      simp [alookup, hne]

theorem alookup_map_pair (items : List String) (k : String) :
    alookup (items.map (fun s => (lower s, s))) k
      = items.find? (fun s => lower s = k) := by
  induction items with
  | nil => simp [alookup]
  | cons s rest ih =>
    by_cases h : lower s = k
    · rw [List.find?_cons_of_pos _ (by simp [h])]
      simp [alookup, h]
    · rw [List.find?_cons_of_neg _ (by simp [h])]
      simp [alookup, h, ih]

theorem find?_lower_self {items : List String} (hn : (items.map lower).Nodup)
    {s : String} (hs : s ∈ items) :
    items.find? (fun t => lower t = lower s) = some s := by
  induction items with
  | nil => simp at hs
  | cons a rest ih =>
    simp only [List.map_cons, List.nodup_cons] at hn
    by_cases h : lower a = lower s
    · rw [List.find?_cons_of_pos _ (by simp [h])]
      rcases List.mem_cons.mp hs with h' | h'
      · rw [h']
      · have : lower a ∈ rest.map lower := by
          rw [h]; exact List.mem_map_of_mem lower h'
        exact absurd this hn.1
    · rw [List.find?_cons_of_neg _ (by simp [h])]
      have hs' : s ∈ rest := by
        rcases List.mem_cons.mp hs with h' | h'
        · subst h'; exact absurd rfl h
        · exact h'
      exact ih hn.2 hs'

theorem find?_map_lower (items : List String) (q : String × String → Bool) :
    (items.map (fun s => (lower s, s))).find? q
      = (items.find? (fun s => q (lower s, s))).map (fun s => (lower s, s)) := by
  induction items with
  | nil => simp
  | cons s rest ih =>
    simp only [List.map_cons, List.find?]
    cases h : q (lower s, s) with
    | true => simp
    | false => simpa using ih

theorem fixture_map_vals_ne_empty : ∀ p ∈ FIXTURE_ITEM_MAP, p.2 ≠ "" := by decide

theorem resolver_tail_eq {items : List String} (key : String)
    (hn : (items.map lower).Nodup) :
    exactOrSub (items.map (fun s => (lower s, s))) key
    = (match items.find? (fun s => lower s = lower key) with
       | some s => some s
       | none => items.find? (fun s => strContains (lower s) (lower key))) := by
  unfold exactOrSub substep
  simp only [alookup_map_pair, find?_map_lower]
  cases hf2 : items.find? (fun s => lower s = lower key) with
  | some v => rfl
  | none =>
    cases hf3 : items.find? (fun s => strContains (lower s) (lower key)) with
    | none => rfl
    | some s0 =>
      simp only [Option.map_some']
      exact find?_lower_self hn (List.mem_of_find?_eq_some hf3)

/-- C1 (amended): provided no two catalog items share the same lowercased
name, the resolver follows exactly the claimed priority order — alias table
first, then a case-insensitive exact match, then the first catalog item (in
catalog order) whose lowercased name contains the lowercased label, else no
match.  (Without that proviso the lookup dict keyed by lowercased names
keeps only the last case-variant, so the resolver can return a later
catalog item — see the counterexample.) -/
theorem C1_resolver_priority (items : List String) (key : String)
    (hn : (items.map lower).Nodup) :
    find_match (itemLookup items) key = resolveSpec items key := by
  rw [itemLookup_nodup_eq hn]
  unfold find_match resolveSpec
  cases halias : alookup FIXTURE_ITEM_MAP key with
  | none =>
    simp only [Option.none_bind]
    exact resolver_tail_eq key hn
  | some mapped =>
    have hne : mapped ≠ "" := fixture_map_vals_ne_empty _ (alookup_mem halias)
    simp only [Option.some_bind]
    rw [if_pos hne, alookup_map_pair items (lower mapped)]
    cases hfa : items.find? (fun s => lower s = lower mapped) with
    | some v => rfl
    | none => exact resolver_tail_eq key hn

/-- C1 witness: a collision-free catalog on which the resolver and the
spec's description agree (here via the exact case-insensitive step). -/
theorem C1_resolver_priority_witness :
    ((["Cement (50kg bag)", "Window (each)"].map lower).Nodup) ∧
    find_match (itemLookup ["Cement (50kg bag)", "Window (each)"]) "Window (each)"
      = resolveSpec ["Cement (50kg bag)", "Window (each)"] "Window (each)" :=
  ⟨by decide, C1_resolver_priority _ _ (by decide)⟩

/-- C1 counterexample: two catalog items that differ only in case.  The
label "door" substring-matches the first item "Door X" per the claim, but
the resolver returns the last case-variant "DOOR x" because the lookup dict
keyed by lowercased names keeps only the last spelling. -/
theorem C1_counterexample :
    find_match (itemLookup ["Door X", "DOOR x"]) "door" = some "DOOR x" ∧
    resolveSpec ["Door X", "DOOR x"] "door" = some "Door X" ∧
    ("DOOR x" : String) ≠ "Door X" :=
  ⟨by decide, by decide, by decide⟩

/-! ## What the fixture loop accumulates (toward C9) -/

theorem dget_dset_self {β : Type} (m : List (String × β)) (k : String) (v : β) (d : β) :
    dget (dset m k v) k d = v := by
  simp [dget, alookup_dset_self]

theorem dget_dset_ne {β : Type} (m : List (String × β)) {k k' : String} (v : β) (d : β)
    (h : k' ≠ k) : dget (dset m k v) k' d = dget m k' d := by
  simp [dget, alookup_dset_ne m v h]

theorem foldl_bumpFix_dget (il : List (String × String)) (cnt : ℚ) (k : String)
    (l : List (String × ℚ)) :
    ∀ qm, dget (l.foldl (bumpFix il cnt) qm) k 0
      = dget qm k 0 + (l.map (fixContrib il cnt k)).sum := by
  induction l with
  | nil => intro qm; simp
  | cons f rest ih =>
    intro qm
    rw [List.foldl_cons, ih]
    by_cases hf : f.2 ≤ 0
    · simp [bumpFix, fixContrib, hf]
    · by_cases hk : bumpKey il f.1 = k
      · rw [show bumpFix il cnt qm f
            = dset qm k (dget qm k 0 + f.2 * cnt) from by simp [bumpFix, hf, hk]]
        rw [dget_dset_self]
        simp only [List.map_cons, List.sum_cons, fixContrib, if_neg hf, if_pos hk]
        ring
      · rw [show bumpFix il cnt qm f
            = dset qm (bumpKey il f.1) (dget qm (bumpKey il f.1) 0 + f.2 * cnt) from by
              simp [bumpFix, hf]]
        rw [dget_dset_ne _ _ _ (fun he => hk he.symm)]
        simp only [List.map_cons, List.sum_cons, fixContrib, if_neg hf, if_neg hk]
        ring

theorem addFix_dget (il : List (String × String)) (tps : List (String × RoomTemplate))
    (k : String) (counts : List (String × ℚ)) :
    ∀ qm, dget (addFix il tps counts qm) k 0
      = dget qm k 0 + contribTotal il tps counts k := by
  unfold addFix contribTotal
  induction counts with
  | nil => intro qm; simp
  | cons rc rest ih =>
    intro qm
    rw [List.foldl_cons, ih]
    by_cases hc : rc.2 ≤ 0
    · simp [roomStep, roomContrib, hc]
    · rw [show roomStep il tps qm rc
          = (roomFixtures tps rc.1).foldl (bumpFix il rc.2) qm from by simp [roomStep, hc]]
      rw [foldl_bumpFix_dget]
      simp only [List.map_cons, List.sum_cons, roomContrib, if_neg hc]
      ring

/-! ## Keys of the quantity map -/

theorem keys_foldl_bumpFix_mono (il : List (String × String)) (cnt : ℚ)
    (l : List (String × ℚ)) :
    ∀ qm k, k ∈ qm.map Prod.fst → k ∈ (l.foldl (bumpFix il cnt) qm).map Prod.fst := by
  induction l with
  | nil => intro qm k h; simpa using h
  | cons f rest ih =>
    intro qm k h
    rw [List.foldl_cons]
    apply ih
    unfold bumpFix
    by_cases hf : f.2 ≤ 0
    · simpa [hf] using h
    · rw [if_neg hf]
      exact mem_keys_dset_of_mem _ _ h

theorem mem_keys_foldl_bumpFix (il : List (String × String)) (cnt : ℚ) (k : String)
    (l : List (String × ℚ)) :
    ∀ qm, (∃ f ∈ l, ¬f.2 ≤ 0 ∧ bumpKey il f.1 = k) →
      k ∈ (l.foldl (bumpFix il cnt) qm).map Prod.fst := by
  induction l with
  | nil => intro qm h; simp at h
  | cons f rest ih =>
    intro qm h
    rw [List.foldl_cons]
    rcases h with ⟨g, hg, hgpos, hgkey⟩
    rcases List.mem_cons.mp hg with h' | h'
    · subst h'
      apply keys_foldl_bumpFix_mono
      rw [show bumpFix il cnt qm g
          = dset qm (bumpKey il g.1) (dget qm (bumpKey il g.1) 0 + g.2 * cnt) from by
            simp [bumpFix, hgpos]]
      rw [← hgkey]
      exact mem_keys_dset_self _ _ _
    · exact ih _ ⟨g, h', hgpos, hgkey⟩

theorem keys_addFix_mono (il : List (String × String)) (tps : List (String × RoomTemplate))
    (counts : List (String × ℚ)) :
    ∀ qm k, k ∈ qm.map Prod.fst → k ∈ (addFix il tps counts qm).map Prod.fst := by
  unfold addFix
  induction counts with
  | nil => intro qm k h; simpa using h
  | cons rc rest ih =>
    intro qm k h
    rw [List.foldl_cons]
    apply ih
    unfold roomStep
    by_cases hc : rc.2 ≤ 0
    · simpa [hc] using h
    · rw [if_neg hc]
      exact keys_foldl_bumpFix_mono _ _ _ _ _ h

theorem mem_keys_addFix (il : List (String × String)) (tps : List (String × RoomTemplate))
    (k : String) (counts : List (String × ℚ)) :
    ∀ qm, (∃ rc ∈ counts, ¬rc.2 ≤ 0 ∧
        ∃ f ∈ roomFixtures tps rc.1, ¬f.2 ≤ 0 ∧ bumpKey il f.1 = k) →
      k ∈ (addFix il tps counts qm).map Prod.fst := by
  unfold addFix
  induction counts with
  | nil => intro qm h; simp at h
  | cons rc rest ih =>
    intro qm h
    rw [List.foldl_cons]
    rcases h with ⟨sc, hsc, hscpos, hfix⟩
    rcases List.mem_cons.mp hsc with h' | h'
    · subst h'
      apply keys_addFix_mono il tps rest
      rw [show roomStep il tps qm sc
          = (roomFixtures tps sc.1).foldl (bumpFix il sc.2) qm from by
            simp [roomStep, hscpos]]
      exact mem_keys_foldl_bumpFix il sc.2 k _ qm hfix
    · exact ih _ ⟨sc, h', hscpos, hfix⟩

theorem keys_nodup_foldl_bumpFix (il : List (String × String)) (cnt : ℚ)
    (l : List (String × ℚ)) :
    ∀ qm, (qm.map Prod.fst).Nodup → ((l.foldl (bumpFix il cnt) qm).map Prod.fst).Nodup := by
  induction l with
  | nil => intro qm h; simpa using h
  | cons f rest ih =>
    intro qm h
    rw [List.foldl_cons]
    apply ih
    unfold bumpFix
    by_cases hf : f.2 ≤ 0
    · simpa [hf] using h
    · rw [if_neg hf]
      exact keys_nodup_dset _ _ h

theorem keys_nodup_addFix (il : List (String × String)) (tps : List (String × RoomTemplate))
    (counts : List (String × ℚ)) :
    ∀ qm, (qm.map Prod.fst).Nodup → ((addFix il tps counts qm).map Prod.fst).Nodup := by
  unfold addFix
  induction counts with
  | nil => intro qm h; simpa using h
  | cons rc rest ih =>
    intro qm h
    rw [List.foldl_cons]
    apply ih
    unfold roomStep
    by_cases hc : rc.2 ≤ 0
    · simpa [hc] using h
    · rw [if_neg hc]
      exact keys_nodup_foldl_bumpFix _ _ _ _ h

theorem mem_keys_dset_inv {β : Type} {m : List (String × β)} {k k' : String} {v : β}
    (h : k' ∈ (dset m k v).map Prod.fst) : k' ∈ m.map Prod.fst ∨ k' = k := by
  rcases keys_dset m k v with hk | hk
  · rw [hk] at h; exact Or.inl h
  · rw [hk] at h
    rcases List.mem_append.mp h with h' | h'
    · exact Or.inl h'
    · right; simpa using h'

theorem seedMap_keys_sub (mat : List Material) (area : ℚ) :
    ∀ k ∈ (seedMap mat area).map Prod.fst, k ∈ mat.map Material.item := by
  unfold seedMap
  suffices h : ∀ (ms : List Material) (m : List (String × ℚ)) (k : String),
      k ∈ ((ms.foldl (fun m r => dset m r.item (r.consumption_per_m2 * area)) m).map
        Prod.fst) →
      k ∈ m.map Prod.fst ∨ k ∈ ms.map Material.item by
    intro k hk
    rcases h mat [] k hk with h' | h'
    · simp at h'
    · exact h'
  intro ms
  induction ms with
  | nil => intro m k hk; exact Or.inl (by simpa using hk)
  | cons r rest ih =>
    intro m k hk
    rw [List.foldl_cons] at hk
    rcases ih _ k hk with h' | h'
    · rcases mem_keys_dset_inv h' with h'' | h''
      · exact Or.inl h''
      · right; rw [h'']; simp
    · right; exact List.mem_cons_of_mem _ h'

theorem seedMap_keys_nodup (mat : List Material) (area : ℚ) :
    ((seedMap mat area).map Prod.fst).Nodup := by
  unfold seedMap
  suffices h : ∀ (ms : List Material) (m : List (String × ℚ)),
      (m.map Prod.fst).Nodup →
      ((ms.foldl (fun m r => dset m r.item (r.consumption_per_m2 * area)) m).map
        Prod.fst).Nodup by
    exact h mat [] (by simp)
  intro ms
  induction ms with
  | nil => intro m h; simpa using h
  | cons r rest ih =>
    intro m h
    rw [List.foldl_cons]
    exact ih _ (keys_nodup_dset _ _ h)

/-! ## Consequences of an unmatched label -/

theorem find_match_none_exactOrSub {il : List (String × String)} {key : String}
    (h : find_match il key = none) : exactOrSub il key = none := by
  unfold find_match at h
  cases halias : alookup FIXTURE_ITEM_MAP key with
  | none => rw [halias] at h; exact h
  | some mapped =>
    rw [halias] at h
    simp only [] at h
    by_cases hne : mapped ≠ ""
    · rw [if_pos hne] at h
      cases h1 : alookup il (lower mapped) with
      | some w => rw [h1] at h; simp at h
      | none => rw [h1] at h; exact h
    · rw [if_neg hne] at h; exact h

theorem find_match_none_substep {il : List (String × String)} {key : String}
    (h : find_match il key = none) : substep il key = none := by
  have h2 := find_match_none_exactOrSub h
  unfold exactOrSub at h2
  cases ha : alookup il (lower key) with
  | some w => rw [ha] at h2; simp at h2
  | none => rw [ha] at h2; exact h2

theorem find_match_none_no_contains {il : List (String × String)} {key : String}
    (h : find_match il key = none) :
    ∀ p ∈ il, ¬strContains p.1 (lower key) = true := by
  have hs := find_match_none_substep h
  unfold substep at hs
  cases hf : il.find? (fun p => strContains p.1 (lower key)) with
  | some p =>
    rw [hf] at hs
    have hpmem := List.mem_of_find?_eq_some hf
    rw [alookup_eq_none_iff] at hs
    exact absurd (List.mem_map_of_mem Prod.fst hpmem) hs
  | none =>
    intro p hp
    have := List.find?_eq_none.mp hf p hp
    simpa using this

theorem substep_some_exists {il : List (String × String)} {key m : String}
    (h : substep il key = some m) : ∃ p ∈ il, p.2 = m := by
  unfold substep at h
  cases hf : il.find? (fun p => strContains p.1 (lower key)) with
  | none => rw [hf] at h; simp at h
  | some p =>
    rw [hf] at h
    exact ⟨(p.1, m), alookup_mem h, rfl⟩

theorem exactOrSub_some_exists {il : List (String × String)} {key m : String}
    (h : exactOrSub il key = some m) : ∃ p ∈ il, p.2 = m := by
  unfold exactOrSub at h
  cases ha : alookup il (lower key) with
  | some v =>
    rw [ha] at h
    have hv : v = m := by simpa using h
    exact ⟨(lower key, m), alookup_mem (hv ▸ ha), rfl⟩
  | none =>
    rw [ha] at h
    exact substep_some_exists h

theorem find_match_some_exists {il : List (String × String)} {key m : String}
    (h : find_match il key = some m) : ∃ p ∈ il, p.2 = m := by
  unfold find_match at h
  cases halias : alookup FIXTURE_ITEM_MAP key with
  | none => rw [halias] at h; exact exactOrSub_some_exists h
  | some mapped =>
    rw [halias] at h
    simp only [] at h
    by_cases hne : mapped ≠ ""
    · rw [if_pos hne] at h
      cases h1 : alookup il (lower mapped) with
      | some v =>
        rw [h1] at h
        have hv : v = m := by simpa using h
        exact ⟨(lower mapped, m), alookup_mem (hv ▸ h1), rfl⟩
      | none => rw [h1] at h; exact exactOrSub_some_exists h
    · rw [if_neg hne] at h; exact exactOrSub_some_exists h

/-! ## The placeholder label cannot collide with the catalog -/

theorem lower_append (a b : String) : lower (a ++ b) = lower a ++ lower b := by
  apply String.ext
  show ((a ++ b).data.map Char.toLower) = _
  rw [String.data_append]
  simp [lower, String.data_append]

theorem leadEq_self_append (p t : List Char) : leadEq p (p ++ t) = true := by
  induction p with
  | nil => rfl
  | cons c cs ih => simp [leadEq, ih]

theorem hasRun_self_append (p t : List Char) : hasRun p (p ++ t) = true := by
  cases p with
  | nil =>
    cases t with
    | nil => rfl
    | cons c cs => simp [hasRun, leadEq]
  | cons c cs =>
    show (leadEq (c :: cs) ((c :: cs) ++ t) || hasRun (c :: cs) (cs ++ t)) = true
    rw [leadEq_self_append]
    rfl

theorem strContains_append_self (s t : String) : strContains (s ++ t) s = true := by
  unfold strContains
  rw [String.data_append]
  exact hasRun_self_append s.data t.data

theorem string_append_right_cancel {a b c : String} (h : a ++ c = b ++ c) : a = b := by
  apply String.ext
  have hd : a.data ++ c.data = b.data ++ c.data := by
    rw [← String.data_append, ← String.data_append, h]
  exact List.append_cancel_right hd

theorem itemLookup_key_of_mem {items : List String} {s : String} (hs : s ∈ items) :
    lower s ∈ (itemLookup items).map Prod.fst := by
  unfold itemLookup
  suffices h : ∀ (its : List String) (m : List (String × String)),
      (s ∈ its ∨ lower s ∈ m.map Prod.fst) →
      lower s ∈ ((its.foldl (fun m t => dset m (lower t) t) m).map Prod.fst) by
    exact h items [] (Or.inl hs)
  intro its
  induction its with
  | nil =>
    intro m hm
    rcases hm with h' | h'
    · simp at h'
    · simpa using h'
  | cons t rest ih =>
    intro m hm
    rw [List.foldl_cons]
    apply ih
    rcases hm with hm | hm
    · rcases List.mem_cons.mp hm with h' | h'
      · right; rw [h']; exact mem_keys_dset_self _ _ _
      · left; exact h'
    · right; exact mem_keys_dset_of_mem _ _ hm

theorem itemLookup_val_mem {items : List String} {p : String × String}
    (hp : p ∈ itemLookup items) : p.2 ∈ items := by
  unfold itemLookup at hp
  suffices h : ∀ (its : List String) (m : List (String × String)),
      p ∈ its.foldl (fun m t => dset m (lower t) t) m → p ∈ m ∨ p.2 ∈ its by
    rcases h items [] hp with h' | h'
    · simp at h'
    · exact h'
  intro its
  induction its with
  | nil => intro m hm; exact Or.inl hm
  | cons t rest ih =>
    intro m hm
    rw [List.foldl_cons] at hm
    rcases ih _ hm with h' | h'
    · rcases mem_dset h' with h'' | h''
      · exact Or.inl h''
      · right; rw [h'']; simp
    · right; exact List.mem_cons_of_mem _ h'

theorem placeholder_not_item {items : List String} {fk : String}
    (h : find_match (itemLookup items) fk = none) : (fk ++ " (user)") ∉ items := by
  intro hmem
  have hkey : lower (fk ++ " (user)") ∈ (itemLookup items).map Prod.fst :=
    itemLookup_key_of_mem hmem
  obtain ⟨p, hp, hp1⟩ : ∃ p ∈ itemLookup items, p.1 = lower (fk ++ " (user)") := by
    rcases List.mem_map.mp hkey with ⟨p, hp, hp1⟩
    exact ⟨p, hp, hp1⟩
  have hcont : strContains p.1 (lower fk) = true := by
    rw [hp1, lower_append]
    exact strContains_append_self (lower fk) (lower " (user)")
  exact find_match_none_no_contains h p hp hcont

theorem bumpKey_eq_placeholder_iff {items : List String} {fk : String}
    (h : find_match (itemLookup items) fk = none) (f : String) :
    bumpKey (itemLookup items) f = fk ++ " (user)" ↔ f = fk := by
  constructor
  · intro hb
    unfold bumpKey at hb
    cases hf : find_match (itemLookup items) f with
    | some m =>
      rw [hf] at hb
      exfalso
      obtain ⟨p, hp, hpv⟩ := find_match_some_exists hf
      have hm_item : m ∈ items := hpv ▸ itemLookup_val_mem hp
      exact placeholder_not_item h (hb ▸ hm_item)
    | none =>
      rw [hf] at hb
      exact string_append_right_cancel hb
  · intro he
    subst he
    unfold bumpKey
    rw [h]

/-! ## From the quantity map to the aggregated rows -/

theorem scale_items (materials : List RawMaterial) (q l : ℚ) :
    (scaleMaterials materials q l).map Material.item = materials.map RawMaterial.item := by
  simp [scaleMaterials, List.map_map, Function.comp, scaleRecord]

theorem contrib_eq_userQty {items : List String} {fk : String}
    (h : find_match (itemLookup items) fk = none)
    (tps : List (String × RoomTemplate)) (counts : List (String × ℚ)) :
    contribTotal (itemLookup items) tps counts (fk ++ " (user)")
      = userQty tps counts fk := by
  unfold contribTotal userQty
  congr 1
  apply List.map_congr_left
  intro rc _
  unfold roomContrib
  by_cases hc : rc.2 ≤ 0
  · simp [hc]
  · rw [if_neg hc, if_neg hc]
    congr 1
    apply List.map_congr_left
    intro fkq _
    unfold fixContrib
    by_cases hq : fkq.2 ≤ 0
    · simp [hq]
    · rw [if_neg hq, if_neg hq]
      simp only [bumpKey_eq_placeholder_iff h]

theorem mkRows_items (mat : List Material) (qm : List (String × ℚ)) :
    (mkRows mat qm).map BOQRow.item = qm.map Prod.fst := by
  unfold mkRows
  rw [List.map_map]
  apply List.map_congr_left
  intro iq _
  simp only [Function.comp]
  cases hf : mat.find? (fun r => r.item = iq.1) <;> rfl

theorem mem_pair_of_key {β : Type} {m : List (String × β)} {k : String} (d : β)
    (hk : k ∈ m.map Prod.fst) : (k, dget m k d) ∈ m := by
  have hne : alookup m k ≠ none := by
    rw [Ne, alookup_eq_none_iff]
    simpa using hk
  obtain ⟨v, hv⟩ := Option.ne_none_iff_exists'.mp hne
  rw [show dget m k d = v from by simp [dget, hv]]
  exact alookup_mem hv

theorem filter_eq_singleton (p : BOQRow → Bool) (r : BOQRow) (hp : p r = true) :
    ∀ rows : List BOQRow, rows.Nodup → r ∈ rows →
      (∀ r' ∈ rows, p r' = true → r' = r) → rows.filter p = [r] := by
  intro rows
  induction rows with
  | nil => intro _ hr _; simp at hr
  | cons a rest ih =>
    intro hn hr huniq
    rw [List.nodup_cons] at hn
    rcases List.mem_cons.mp hr with h' | h'
    · have ha : a = r := h'.symm
      subst ha
      rw [List.filter_cons_of_pos hp]
      have hnil : rest.filter p = [] := by
        rw [List.filter_eq_nil_iff]
        intro b hb hpb
        exact hn.1 ((huniq b (List.mem_cons_of_mem _ hb) hpb) ▸ hb)
      rw [hnil]
    · have hna : ¬p a = true := by
        intro hpa
        exact hn.1 ((huniq a (List.mem_cons_self _ _) hpa) ▸ h')
      rw [List.filter_cons_of_neg (by simpa using hna)]
      exact ih hn.2 h' (fun r' hr' => huniq r' (List.mem_cons_of_mem _ hr'))

theorem mem_insertSorted (a x : String × String × ℚ × String)
    (l : List (String × String × ℚ × String)) :
    x ∈ insertSorted a l ↔ x = a ∨ x ∈ l := by
  induction l with
  | nil => simp [insertSorted]
  | cons b rest ih =>
    unfold insertSorted
    by_cases h : keyLe a b
    · simp [h]
    · rw [if_neg h]
      simp only [List.mem_cons, ih]
      tauto

theorem mem_sortKeys (l : List (String × String × ℚ × String))
    (x : String × String × ℚ × String) : x ∈ sortKeys l ↔ x ∈ l := by
  induction l with
  | nil => simp [sortKeys]
  | cons a rest ih =>
    show x ∈ insertSorted a (sortKeys rest) ↔ _
    rw [mem_insertSorted]
    simp [ih]

theorem aggregate_mem_of_nodup {rows : List BOQRow} {r : BOQRow}
    (hn : (rows.map BOQRow.item).Nodup) (hr : r ∈ rows) : r ∈ aggregate rows := by
  have hnodup : rows.Nodup := List.Nodup.of_map _ hn
  have hfil : rows.filter (fun r' => rowKey r' = rowKey r) = [r] := by
    apply filter_eq_singleton _ r (by simp) rows hnodup hr
    intro r' hr' hp
    have hkeq : rowKey r' = rowKey r := by simpa using hp
    have hitem : r'.item = r.item := congrArg (fun k => k.1) hkeq
    exact List.inj_on_of_nodup_map hn hr' hr hitem
  have hne : rows.isEmpty = false := by
    cases rows with
    | nil => simp at hr
    | cons a l => rfl
  unfold aggregate
  rw [hne]
  simp only [Bool.false_eq_true, if_false]
  have hkmem : rowKey r ∈ sortKeys ((rows.map rowKey).dedup) := by
    rw [mem_sortKeys, List.mem_dedup]
    exact List.mem_map_of_mem rowKey hr
  apply List.mem_map.mpr
  refine ⟨rowKey r, hkmem, ?_⟩
  rw [hfil]
  cases r with
  | mk i u q up c ph => simp [rowKey]

/-- C9 (confirmed): a fixture label `fk` that the resolver cannot match,
occurring with positive quantity in some positively-counted room, yields in
the final BOQ a visible placeholder row labeled `fk ++ " (user)"` with unit
"each", unit price 0, phase "Misc", and quantity equal to the fixture
quantity times room count accumulated across rooms. -/
theorem C9_placeholder_row (counts : List (String × ℚ))
    (templates : List (String × RoomTemplate)) (materials : List RawMaterial)
    (q l : ℚ) (fk : String)
    (h1 : find_match (itemLookup (materials.map RawMaterial.item)) fk = none)
    (h2 : ∃ rc ∈ counts, ¬rc.2 ≤ 0 ∧
      ∃ f ∈ roomFixtures templates rc.1, ¬f.2 ≤ 0 ∧ f.1 = fk) :
    ({ item := fk ++ " (user)", unit := "each"
     , total_qty := userQty templates counts fk, unit_price := 0
     , total_cost := 0, phase := "Misc" } : BOQRow)
      ∈ build_boq counts templates materials q l := by
  have hitems := scale_items materials q l
  have huknot : (fk ++ " (user)") ∉ (scaleMaterials materials q l).map Material.item := by
    rw [hitems]
    exact placeholder_not_item h1
  have hseed : dget (seedMap (scaleMaterials materials q l)
      (total_area counts templates)) (fk ++ " (user)") 0 = 0 := by
    have hnone : alookup (seedMap (scaleMaterials materials q l)
        (total_area counts templates)) (fk ++ " (user)") = none := by
      rw [alookup_eq_none_iff]
      intro hmem
      exact huknot (hitems ▸ seedMap_keys_sub _ _ _ hmem)
    simp [dget, hnone]
  have hval : dget (addFix (itemLookup (materials.map RawMaterial.item)) templates counts
      (seedMap (scaleMaterials materials q l) (total_area counts templates)))
      (fk ++ " (user)") 0 = userQty templates counts fk := by
    rw [addFix_dget, hseed, zero_add, contrib_eq_userQty h1]
  have hukkey : (fk ++ " (user)") ∈ (addFix (itemLookup (materials.map RawMaterial.item))
      templates counts (seedMap (scaleMaterials materials q l)
        (total_area counts templates))).map Prod.fst := by
    apply mem_keys_addFix
    obtain ⟨rc, hrc, hpos, f, hf, hfpos, hffk⟩ := h2
    refine ⟨rc, hrc, hpos, f, hf, hfpos, ?_⟩
    rw [hffk]
    unfold bumpKey
    rw [h1]
  simp only [build_boq]
  rw [hitems]
  apply aggregate_mem_of_nodup
  · rw [mkRows_items]
    exact keys_nodup_addFix _ _ _ _ (seedMap_keys_nodup _ _)
  · unfold mkRows
    apply List.mem_map.mpr
    refine ⟨(fk ++ " (user)", userQty templates counts fk), ?_, ?_⟩
    · rw [← hval]
      exact mem_pair_of_key 0 hukkey
    · have hfind : (scaleMaterials materials q l).find?
          (fun r => r.item = fk ++ " (user)") = none := by
        rw [List.find?_eq_none]
        intro r hri hdec
        have he : r.item = fk ++ " (user)" := by simpa using hdec
        exact huknot (he ▸ List.mem_map_of_mem Material.item hri)
      rw [hfind]
      simp

/-- C9 witness: the label "Gadget" is unmatched against a one-item catalog;
two rooms "R" each carrying three Gadgets yield the placeholder row with
quantity 6. -/
theorem C9_placeholder_row_witness :
    find_match (itemLookup (([⟨"Cement (50kg bag)", "bag", some 125, "Foundation",
        some (2/5)⟩] : List RawMaterial).map RawMaterial.item)) "Gadget" = none ∧
    userQty [("R", (⟨10, [("Gadget", 3)]⟩ : RoomTemplate))] [("R", (2:ℚ))] "Gadget" = 6 ∧
    ({ item := "Gadget (user)", unit := "each"
     , total_qty := userQty [("R", (⟨10, [("Gadget", 3)]⟩ : RoomTemplate))]
          [("R", (2:ℚ))] "Gadget"
     , unit_price := 0, total_cost := 0, phase := "Misc" } : BOQRow)
      ∈ build_boq [("R", (2:ℚ))] [("R", (⟨10, [("Gadget", 3)]⟩ : RoomTemplate))]
          [⟨"Cement (50kg bag)", "bag", some 125, "Foundation", some (2/5)⟩] 1 1 := by
  refine ⟨by decide, ?_, ?_⟩
  · norm_num [userQty, roomFixtures, alookup]
  · exact C9_placeholder_row _ _ _ 1 1 "Gadget" (by decide)
      ⟨("R", 2), by simp, by norm_num,
        ("Gadget", 3), by simp [roomFixtures, alookup], by norm_num, rfl⟩

/-! ## Scheduler: entry facts and order helpers -/

theorem mkEntry_start (tot : List (String × ℝ)) (i s : ℝ) (ph : String) (rem : ℝ)
    (cum : WithTop ℝ) : (mkEntry tot i s ph rem cum).start = cum := rfl

theorem mkEntry_endM (tot : List (String × ℝ)) (i s : ℝ) (ph : String) (rem : ℝ)
    (cum : WithTop ℝ) :
    (mkEntry tot i s ph rem cum).endM
      = (mkEntry tot i s ph rem cum).start + (mkEntry tot i s ph rem cum).months := rfl

theorem mkEntry_base (tot : List (String × ℝ)) (i s : ℝ) (ph : String) (rem : ℝ)
    (cum : WithTop ℝ) : (mkEntry tot i s ph rem cum).base = (alookup tot ph).getD 0 := rfl

theorem mkEntry_after (tot : List (String × ℝ)) (i s : ℝ) (ph : String) (rem : ℝ)
    (cum : WithTop ℝ) :
    (mkEntry tot i s ph rem cum).after_upfront
      = (upfrontStep rem ((alookup tot ph).getD 0)).1 := rfl

theorem mkEntry_months (tot : List (String × ℝ)) (i s : ℝ) (ph : String) (rem : ℝ)
    (cum : WithTop ℝ) :
    (mkEntry tot i s ph rem cum).months
      = if s > 0 then
          wdiv (wmul (upfrontStep rem ((alookup tot ph).getD 0)).1
            (epow (1 + i / 100) (WithTop.map (fun m => m / 12) cum))) s
        else ⊤ := rfl

theorem wmul_nonneg {c : ℝ} {x : WithTop ℝ} (hc : 0 ≤ c) (hx : 0 ≤ x) : 0 ≤ wmul c x := by
  induction x using WithTop.recTopCoe with
  | top => simp [wmul]
  | coe y =>
    have hy : (0 : ℝ) ≤ y := by exact_mod_cast hx
    simp only [wmul, WithTop.map_coe]
    exact_mod_cast mul_nonneg hc hy

theorem wdiv_nonneg {x : WithTop ℝ} {c : ℝ} (hx : 0 ≤ x) (hc : 0 ≤ c) : 0 ≤ wdiv x c := by
  induction x using WithTop.recTopCoe with
  | top => simp [wdiv]
  | coe y =>
    have hy : (0 : ℝ) ≤ y := by exact_mod_cast hx
    simp only [wdiv, WithTop.map_coe]
    exact_mod_cast div_nonneg hy hc

theorem epow_nonneg {b : ℝ} (hb : 0 ≤ b) (e : WithTop ℝ) : 0 ≤ epow b e := by
  induction e using WithTop.recTopCoe with
  | top =>
    unfold epow
    rw [WithTop.recTopCoe_top]
    by_cases h1 : 1 < b
    · simp [h1]
    · by_cases h2 : b = 1 <;> simp [h1, h2]
  | coe y =>
    unfold epow
    rw [WithTop.recTopCoe_coe]
    exact_mod_cast Real.rpow_nonneg hb y

theorem wtop_le_add_right (a b : WithTop ℝ) (hb : 0 ≤ b) : a ≤ a + b := by
  induction a using WithTop.recTopCoe with
  | top => rw [WithTop.top_add]
  | coe x =>
    induction b using WithTop.recTopCoe with
    | top => rw [WithTop.add_top]; exact le_top
    | coe y =>
      have hy : (0 : ℝ) ≤ y := by exact_mod_cast hb
      rw [← WithTop.coe_add, WithTop.coe_le_coe]
      linarith

theorem alookup_getD_nonneg {tot : List (String × ℝ)} (hc : ∀ p ∈ tot, 0 ≤ p.2)
    (ph : String) : 0 ≤ (alookup tot ph).getD 0 := by
  cases h : alookup tot ph with
  | none => simp
  | some v => simpa using hc (ph, v) (alookup_mem h)

theorem upfrontStep_after_nonneg {rem base : ℝ} (hb : 0 ≤ base) :
    0 ≤ (upfrontStep rem base).1 := by
  unfold upfrontStep
  by_cases h : rem > 0
  · simp [h]
  · simpa [h] using hb

theorem mkEntry_months_nonneg {tot : List (String × ℝ)} {i s : ℝ}
    (hc : ∀ p ∈ tot, 0 ≤ p.2) (hi : 0 ≤ i) (ph : String) (rem : ℝ) (cum : WithTop ℝ) :
    0 ≤ (mkEntry tot i s ph rem cum).months := by
  rw [mkEntry_months]
  by_cases hs : s > 0
  · rw [if_pos hs]
    have hb : (0 : ℝ) ≤ 1 + i / 100 := by linarith
    exact wdiv_nonneg
      (wmul_nonneg (upfrontStep_after_nonneg (alookup_getD_nonneg hc ph))
        (epow_nonneg hb _)) (le_of_lt hs)
  · rw [if_neg hs]
    exact le_top

/-- The scheduler output satisfies the chain discipline from any starting
state. -/
theorem scheduleAux_chained (tot : List (String × ℝ)) (i s : ℝ) :
    ∀ (order : List String) (rem : ℝ) (cum : WithTop ℝ),
      chained cum (scheduleAux tot i s order rem cum) := by
  intro order
  induction order with
  | nil => intro rem cum; exact trivial
  | cons ph rest ih =>
    intro rem cum
    exact ⟨mkEntry_start tot i s ph rem cum, mkEntry_endM tot i s ph rem cum, ih _ _⟩

/-- C5 (confirmed): the emitted FundingEntry sequence is a chain — the first
phase starts at month 0, each phase's end month is its start month plus its
months needed, and every later phase starts where the previous one ended. -/
theorem C5_schedule_chain (tot : List (String × ℝ)) (order : List String)
    (one_time infl sav : ℝ) :
    chained 0 (schedule tot order one_time infl sav) :=
  scheduleAux_chained tot infl sav order one_time 0

/-! ## C7: infinite propagation and chain monotonicity -/

theorem scheduleAux_months_nonneg {tot : List (String × ℝ)} {i s : ℝ}
    (hc : ∀ p ∈ tot, 0 ≤ p.2) (hi : 0 ≤ i) :
    ∀ (order : List String) (rem : ℝ) (cum : WithTop ℝ),
      ∀ e ∈ scheduleAux tot i s order rem cum, 0 ≤ e.months := by
  intro order
  induction order with
  | nil => intro rem cum e he; simp [scheduleAux] at he
  | cons ph rest ih =>
    intro rem cum e he
    rcases List.mem_cons.mp he with h | h
    · subst h; exact mkEntry_months_nonneg hc hi ph rem cum
    · exact ih _ _ e h

theorem chained_mono : ∀ (out : List FundingEntry) (cum : WithTop ℝ),
    chained cum out → (∀ e ∈ out, 0 ≤ e.months) → 0 ≤ cum →
    List.Chain' (· ≤ ·) (cum :: timePoints out) ∧ ∀ x ∈ timePoints out, 0 ≤ x := by
  intro out
  induction out with
  | nil =>
    intro cum _ _ _
    exact ⟨List.chain'_singleton cum, by simp [timePoints]⟩
  | cons e rest ih =>
    intro cum hch hm h0
    obtain ⟨hstart, hend, hch'⟩ := hch
    have hm0 : 0 ≤ e.months := hm e (List.mem_cons_self _ _)
    have h1 : e.start ≤ e.endM := by
      rw [hend]
      exact wtop_le_add_right _ _ hm0
    have hs0 : 0 ≤ e.start := hstart ▸ h0
    have h2 : 0 ≤ e.endM := le_trans hs0 h1
    obtain ⟨ihc, ihn⟩ := ih e.endM hch'
      (fun e' he' => hm e' (List.mem_cons_of_mem _ he')) h2
    constructor
    · show List.Chain' _ (cum :: e.start :: e.endM :: timePoints rest)
      rw [List.chain'_cons, List.chain'_cons]
      exact ⟨le_of_eq hstart.symm, h1, ihc⟩
    · intro x hx
      rcases List.mem_cons.mp hx with h' | h'
      · rw [h']; exact hs0
      · rcases List.mem_cons.mp h' with h'' | h''
        · rw [h'']; exact h2
        · exact ihn x h''

theorem chained_top : ∀ (out : List FundingEntry) (cum : WithTop ℝ),
    chained cum out → cum = ⊤ → ∀ e ∈ out, e.start = ⊤ ∧ e.endM = ⊤ := by
  intro out
  induction out with
  | nil => intro cum _ _ e he; simp at he
  | cons e rest ih =>
    intro cum hch htop e' he'
    obtain ⟨hstart, hend, hch'⟩ := hch
    have hst : e.start = ⊤ := by rw [hstart, htop]
    have hen : e.endM = ⊤ := by
      rw [hend, hst]
      exact WithTop.top_add _
    rcases List.mem_cons.mp he' with h | h
    · rw [h]; exact ⟨hst, hen⟩
    · exact ih e.endM hch' hen e' h

theorem chained_topProp : ∀ (out : List FundingEntry) (cum : WithTop ℝ),
    chained cum out → topProp out := by
  intro out
  induction out with
  | nil => intro _ _; trivial
  | cons e rest ih =>
    intro cum hch
    obtain ⟨_, _, hch'⟩ := hch
    exact ⟨fun htop => chained_top rest e.endM hch' htop, ih e.endM hch'⟩

/-- C7 (amended): once one phase's end month is infinite, every following
phase's start and end months are infinite too (unconditionally); and
provided every phase total is non-negative and the annual inflation is
non-negative, the start/end months form a monotone non-decreasing chain of
non-negative values.  (Without the non-negativity proviso a negative phase
cost yields negative months and breaks the chain — see the
counterexample.) -/
theorem C7_top_and_chain (tot : List (String × ℝ)) (order : List String)
    (upfront infl sav : ℝ) :
    topProp (schedule tot order upfront infl sav) ∧
    ((∀ p ∈ tot, 0 ≤ p.2) → 0 ≤ infl →
      List.Chain' (· ≤ ·) (timePoints (schedule tot order upfront infl sav)) ∧
      ∀ x ∈ timePoints (schedule tot order upfront infl sav), 0 ≤ x) := by
  have hch : chained 0 (schedule tot order upfront infl sav) :=
    scheduleAux_chained tot infl sav order upfront 0
  refine ⟨chained_topProp _ 0 hch, ?_⟩
  intro hc hi
  have hm : ∀ e ∈ schedule tot order upfront infl sav, 0 ≤ e.months :=
    scheduleAux_months_nonneg hc hi order upfront 0
  obtain ⟨hchain, hnn⟩ := chained_mono _ 0 hch hm le_rfl
  exact ⟨hchain.tail, hnn⟩

/-- C7 witness: one phase of cost 3, no inflation, savings 1. -/
theorem C7_top_and_chain_witness :
    (∀ p ∈ [("A", (3:ℝ))], (0:ℝ) ≤ p.2) ∧
    (topProp (schedule [("A", (3:ℝ))] ["A"] 0 0 1) ∧
      List.Chain' (· ≤ ·) (timePoints (schedule [("A", (3:ℝ))] ["A"] 0 0 1)) ∧
      ∀ x ∈ timePoints (schedule [("A", (3:ℝ))] ["A"] 0 0 1), 0 ≤ x) := by
  have h1 : ∀ p ∈ [("A", (3:ℝ))], (0:ℝ) ≤ p.2 := by
    intro p hp
    simp only [List.mem_singleton] at hp
    subst hp
    norm_num
  obtain ⟨ht, hrest⟩ := C7_top_and_chain [("A", (3:ℝ))] ["A"] 0 0 1
  exact ⟨h1, ht, (hrest h1 le_rfl).1, (hrest h1 le_rfl).2⟩

theorem wtop_map_zero (f : ℝ → ℝ) :
    WithTop.map f (0 : WithTop ℝ) = ((f 0 : ℝ) : WithTop ℝ) := rfl

theorem wtop_map_one (f : ℝ → ℝ) :
    WithTop.map f (1 : WithTop ℝ) = ((f 1 : ℝ) : WithTop ℝ) := rfl

theorem wtop_recTopCoe_zero (d : WithTop ℝ) (f : ℝ → WithTop ℝ) :
    WithTop.recTopCoe d f (0 : WithTop ℝ) = f 0 := rfl

theorem wtop_map_id (x : WithTop ℝ) : WithTop.map (fun y => y) x = x := by
  induction x using WithTop.recTopCoe with
  | top => rfl
  | coe y => rfl

/-- C7 counterexample: one phase with total -5, no upfront, savings 1 — its
months needed is -5, so the end month precedes the start month and is
negative, refuting the unconditional monotone non-negative chain. -/
theorem C7_counterexample :
    timePoints (schedule [("A", (-5 : ℝ))] ["A"] 0 0 1)
      = [(0 : WithTop ℝ), ((-5 : ℝ) : WithTop ℝ)] ∧
    ¬List.Chain' (· ≤ ·) [(0 : WithTop ℝ), ((-5 : ℝ) : WithTop ℝ)] := by
  constructor
  · norm_num [schedule, scheduleAux, timePoints, mkEntry, upfrontStep, alookup,
      wmul, wdiv, epow, WithTop.map_coe, WithTop.recTopCoe_coe, Real.one_rpow,
      wtop_map_zero, wtop_map_one, wtop_recTopCoe_zero, wtop_map_id]
  · intro hch
    rw [List.chain'_cons] at hch
    have h0 : (0 : WithTop ℝ) ≤ ((-5 : ℝ) : WithTop ℝ) := hch.1
    have h0' : (0 : ℝ) ≤ -5 := by exact_mod_cast h0
    linarith

/-! ## C6: upfront cash covering every phase -/

theorem mkEntry_months_zero {tot : List (String × ℝ)} {i s : ℝ} (hs : s > 0)
    {ph : String} {rem : ℝ} (c : ℝ)
    (hafter : (upfrontStep rem ((alookup tot ph).getD 0)).1 = 0) :
    (mkEntry tot i s ph rem ((c : ℝ) : WithTop ℝ)).months = 0 := by
  rw [mkEntry_months, if_pos hs, hafter]
  simp [wmul, wdiv, epow, WithTop.map_coe, WithTop.recTopCoe_coe]

theorem scheduleAux_months_zero {tot : List (String × ℝ)} {i s : ℝ}
    (hs : s > 0) (hc : ∀ p ∈ tot, 0 ≤ p.2) :
    ∀ (order : List String) (rem : ℝ) (c : ℝ),
      ((phaseCosts tot order).sum ≤ rem ∨ ∀ x ∈ phaseCosts tot order, x = 0) →
      ∀ e ∈ scheduleAux tot i s order rem ((c : ℝ) : WithTop ℝ), e.months = 0 := by
  intro order
  induction order with
  | nil => intro rem c _ e he; simp [scheduleAux] at he
  | cons ph rest ih =>
    intro rem c hinv e he
    have hbase := alookup_getD_nonneg hc ph
    have hrest_nonneg : 0 ≤ (phaseCosts tot rest).sum := by
      apply List.sum_nonneg
      intro x hx
      obtain ⟨ph', _, rfl⟩ := List.mem_map.mp hx
      exact alookup_getD_nonneg hc ph'
    have hcons : phaseCosts tot (ph :: rest)
        = (alookup tot ph).getD 0 :: phaseCosts tot rest := rfl
    have hkey : (upfrontStep rem ((alookup tot ph).getD 0)).1 = 0 ∧
        ((phaseCosts tot rest).sum ≤ (upfrontStep rem ((alookup tot ph).getD 0)).2 ∨
          ∀ x ∈ phaseCosts tot rest, x = 0) := by
      rcases hinv with hle | hzero
      · rw [hcons, List.sum_cons] at hle
        by_cases hr : rem > 0
        · have hbr : (alookup tot ph).getD 0 ≤ rem := by linarith
          unfold upfrontStep
          simp only [if_pos hr, min_eq_right hbr]
          constructor
          · simp
          · left; linarith
        · have hrem : rem ≤ 0 := not_lt.mp hr
          have hb0 : (alookup tot ph).getD 0 = 0 := by linarith
          have hr0 : (phaseCosts tot rest).sum = 0 := by linarith
          unfold upfrontStep
          simp only [if_neg hr]
          refine ⟨hb0, Or.inr ?_⟩
          intro x hx
          have hxnn : 0 ≤ x := by
            obtain ⟨ph', _, rfl⟩ := List.mem_map.mp hx
            exact alookup_getD_nonneg hc ph'
          have hxle : x ≤ (phaseCosts tot rest).sum :=
            List.single_le_sum (fun y hy => by
              obtain ⟨ph', _, rfl⟩ := List.mem_map.mp hy
              exact alookup_getD_nonneg hc ph') x hx
          linarith
      · have hb0 : (alookup tot ph).getD 0 = 0 := by
          apply hzero
          rw [hcons]
          exact List.mem_cons_self _ _
        constructor
        · unfold upfrontStep
          by_cases hr : rem > 0
          · simp only [if_pos hr, hb0]
            simp [min_eq_right (le_of_lt hr)]
          · simp only [if_neg hr]
            exact hb0
        · right
          intro x hx
          apply hzero
          rw [hcons]
          exact List.mem_cons_of_mem _ hx
    rcases List.mem_cons.mp he with hh | ht
    · rw [hh]
      exact mkEntry_months_zero hs c hkey.1
    · have hm0 : (mkEntry tot i s ph rem ((c : ℝ) : WithTop ℝ)).months = 0 :=
        mkEntry_months_zero hs c hkey.1
      have hcum : (mkEntry tot i s ph rem ((c : ℝ) : WithTop ℝ)).endM
          = ((c : ℝ) : WithTop ℝ) := by
        rw [mkEntry_endM, mkEntry_start, hm0, add_zero]
      rw [hcum] at ht
      exact ih _ c hkey.2 e ht

/-- C6 (amended): if every phase total is non-negative, the monthly savings
are strictly positive, and the upfront cash covers the sum of the phase base
costs, then every emitted entry has `months_needed = 0`.  (With zero monthly
savings the source sets `months_needed = inf` even for fully funded phases,
and a negative phase cost can leave a later phase unfunded — see the
counterexample.) -/
theorem C6_upfront_covers (tot : List (String × ℝ)) (order : List String)
    (upfront infl sav : ℝ) (hc : ∀ p ∈ tot, 0 ≤ p.2) (hs : 0 < sav)
    (hu : (phaseCosts tot order).sum ≤ upfront) :
    ∀ e ∈ schedule tot order upfront infl sav, e.months = 0 :=
  fun e he => scheduleAux_months_zero hs hc order upfront 0 (Or.inl hu) e he

/-- C6 witness: one phase of cost 3, upfront 3, savings 1: months needed is
0. -/
theorem C6_upfront_covers_witness :
    (∀ p ∈ [("A", (3:ℝ))], (0:ℝ) ≤ p.2) ∧ (0:ℝ) < 1 ∧
    (phaseCosts [("A", (3:ℝ))] ["A"]).sum ≤ 3 ∧
    ∀ e ∈ schedule [("A", (3:ℝ))] ["A"] 3 0 1, e.months = 0 := by
  have h1 : ∀ p ∈ [("A", (3:ℝ))], (0:ℝ) ≤ p.2 := by
    intro p hp
    simp only [List.mem_singleton] at hp
    subst hp
    norm_num
  have h3 : (phaseCosts [("A", (3:ℝ))] ["A"]).sum ≤ 3 := by
    norm_num [phaseCosts, alookup]
  exact ⟨h1, by norm_num, h3, C6_upfront_covers _ _ _ _ _ h1 (by norm_num) h3⟩

/-- C6 counterexample: (a) with zero monthly savings the single phase is
fully covered by the upfront cash yet `months_needed = inf`, and (b) with a
negative phase cost the upfront cash exceeds the cost sum yet
`months_needed = -5`, not 0. -/
theorem C6_counterexample :
    ((schedule [("A", (100:ℝ))] ["A"] 100 0 0).map FundingEntry.months = [⊤] ∧
      (phaseCosts [("A", (100:ℝ))] ["A"]).sum ≤ 100 ∧ (⊤ : WithTop ℝ) ≠ 0) ∧
    ((schedule [("A", (-5:ℝ))] ["A"] 0 0 1).map FundingEntry.months
        = [((-5 : ℝ) : WithTop ℝ)] ∧
      (phaseCosts [("A", (-5:ℝ))] ["A"]).sum ≤ 0 ∧ ((-5 : ℝ) : WithTop ℝ) ≠ 0) := by
  refine ⟨⟨?_, ?_, ?_⟩, ⟨?_, ?_, ?_⟩⟩
  · norm_num [schedule, scheduleAux, mkEntry_months]
  · norm_num [phaseCosts, alookup]
  · simp
  · norm_num [schedule, scheduleAux, mkEntry_months, upfrontStep, alookup,
      wmul, wdiv, epow, WithTop.map_coe, WithTop.recTopCoe_coe, Real.one_rpow,
      wtop_map_zero, wtop_map_one, wtop_recTopCoe_zero, wtop_map_id]
  · norm_num [phaseCosts, alookup]
  · intro h
    have h' : (-5 : ℝ) = 0 := by exact_mod_cast h
    norm_num at h'

/-! ## C10: the upfront cash residual -/

theorem upfrontStep_applied (rem c : ℝ) :
    c - (upfrontStep rem c).1 = rem - (upfrontStep rem c).2 := by
  unfold upfrontStep
  by_cases hr : rem > 0
  · simp only [if_pos hr]
    rw [max_eq_right (sub_nonneg.mpr (min_le_right rem c))]
    ring
  · simp only [if_neg hr]
    ring

theorem upfrontStep_facts {rem c : ℝ} (hrem : 0 ≤ rem) (hc : 0 ≤ c) :
    (upfrontStep rem c).2 ≤ rem ∧ 0 ≤ (upfrontStep rem c).2 := by
  unfold upfrontStep
  by_cases hr : rem > 0
  · simp only [if_pos hr]
    have h1 : min rem c ≤ rem := min_le_left _ _
    have h2 : 0 ≤ min rem c := le_min (le_of_lt hr) hc
    constructor <;> [linarith; linarith]
  · simp only [if_neg hr]
    exact ⟨le_refl rem, hrem⟩

theorem residuals_head (costs : List ℝ) (rem : ℝ) :
    ∃ t, residuals costs rem = rem :: t := by
  cases costs with
  | nil => exact ⟨[], rfl⟩
  | cons c rest => exact ⟨_, rfl⟩

theorem residuals_chain (costs : List ℝ) :
    ∀ rem, 0 ≤ rem → (∀ c ∈ costs, 0 ≤ c) →
      List.Chain' (fun a b => b ≤ a) (residuals costs rem) ∧
      ∀ x ∈ residuals costs rem, 0 ≤ x := by
  induction costs with
  | nil =>
    intro rem h0 _
    exact ⟨List.chain'_singleton rem, by simp [residuals, h0]⟩
  | cons c rest ih =>
    intro rem h0 hcs
    have hc : 0 ≤ c := hcs c (List.mem_cons_self _ _)
    obtain ⟨hle, hnn⟩ := upfrontStep_facts h0 hc
    obtain ⟨ihc, ihn⟩ := ih _ hnn (fun x hx => hcs x (List.mem_cons_of_mem _ hx))
    obtain ⟨t, ht⟩ := residuals_head rest (upfrontStep rem c).2
    constructor
    · show List.Chain' _ (rem :: residuals rest (upfrontStep rem c).2)
      rw [ht, List.chain'_cons]
      rw [ht] at ihc
      exact ⟨hle, ihc⟩
    · intro x hx
      rcases List.mem_cons.mp hx with h | h
      · rw [h]; exact h0
      · exact ihn x h

theorem scheduleAux_applied_sum (tot : List (String × ℝ)) (i s : ℝ) :
    ∀ (order : List String) (rem : ℝ) (cum : WithTop ℝ),
      ((scheduleAux tot i s order rem cum).map
          (fun e => e.base - e.after_upfront)).sum
        = rem - finalRem (phaseCosts tot order) rem := by
  intro order
  induction order with
  | nil => intro rem cum; simp [scheduleAux, finalRem, phaseCosts]
  | cons ph rest ih =>
    intro rem cum
    show (mkEntry tot i s ph rem cum).base - (mkEntry tot i s ph rem cum).after_upfront
        + ((scheduleAux tot i s rest (upfrontStep rem ((alookup tot ph).getD 0)).2
            (mkEntry tot i s ph rem cum).endM).map
          (fun e => e.base - e.after_upfront)).sum = _
    rw [mkEntry_base, mkEntry_after, ih]
    have happ := upfrontStep_applied rem ((alookup tot ph).getD 0)
    have hfr : finalRem (phaseCosts tot (ph :: rest)) rem
        = finalRem (phaseCosts tot rest) (upfrontStep rem ((alookup tot ph).getD 0)).2 :=
      rfl
    rw [hfr]
    linarith

theorem finalRem_le_and_nonneg (costs : List ℝ) :
    ∀ rem, 0 ≤ rem → (∀ c ∈ costs, 0 ≤ c) → 0 ≤ finalRem costs rem := by
  induction costs with
  | nil => intro rem h _; simpa [finalRem] using h
  | cons c rest ih =>
    intro rem h hcs
    obtain ⟨_, hnn⟩ := upfrontStep_facts h (hcs c (List.mem_cons_self _ _))
    exact ih _ hnn (fun x hx => hcs x (List.mem_cons_of_mem _ hx))

/-- C10 (confirmed): with non-negative upfront cash and non-negative phase
base costs, the carried `remaining_upfront` residuals are non-increasing and
never negative, and the total upfront amount applied across phases (each
entry's `base - after_upfront`) never exceeds the initial upfront cash. -/
theorem C10_upfront_invariant (tot : List (String × ℝ)) (order : List String)
    (upfront infl sav : ℝ) (hu : 0 ≤ upfront)
    (hc : ∀ c ∈ phaseCosts tot order, 0 ≤ c) :
    List.Chain' (fun a b => b ≤ a) (residuals (phaseCosts tot order) upfront) ∧
    (∀ x ∈ residuals (phaseCosts tot order) upfront, 0 ≤ x) ∧
    ((schedule tot order upfront infl sav).map
        (fun e => e.base - e.after_upfront)).sum ≤ upfront := by
  obtain ⟨h1, h2⟩ := residuals_chain _ upfront hu hc
  refine ⟨h1, h2, ?_⟩
  have hsum := scheduleAux_applied_sum tot infl sav order upfront 0
  rw [show schedule tot order upfront infl sav
      = scheduleAux tot infl sav order upfront 0 from rfl, hsum]
  have hf := finalRem_le_and_nonneg _ upfront hu hc
  linarith

/-- C10 witness: costs 5 and 3 against upfront 6 — residuals 6, 1, 0. -/
theorem C10_upfront_invariant_witness :
    (0:ℝ) ≤ 6 ∧ (∀ c ∈ phaseCosts [("A", (5:ℝ)), ("B", 3)] ["A", "B"], 0 ≤ c) ∧
    (List.Chain' (fun a b => b ≤ a)
        (residuals (phaseCosts [("A", (5:ℝ)), ("B", 3)] ["A", "B"]) 6) ∧
      (∀ x ∈ residuals (phaseCosts [("A", (5:ℝ)), ("B", 3)] ["A", "B"]) 6, 0 ≤ x) ∧
      ((schedule [("A", (5:ℝ)), ("B", 3)] ["A", "B"] 6 0 1).map
          (fun e => e.base - e.after_upfront)).sum ≤ 6) := by
  have hpc : ∀ c ∈ phaseCosts [("A", (5:ℝ)), ("B", 3)] ["A", "B"], 0 ≤ c := by
    intro c hcmem
    have : phaseCosts [("A", (5:ℝ)), ("B", 3)] ["A", "B"] = [5, 3] := by
      have hne : ¬("A" : String) = "B" := by decide
      norm_num [phaseCosts, alookup, hne]
    rw [this] at hcmem
    rcases List.mem_cons.mp hcmem with h | h
    · rw [h]; norm_num
    · simp only [List.mem_singleton] at h
      rw [h]; norm_num
  exact ⟨by norm_num, hpc, C10_upfront_invariant _ _ _ _ _ (by norm_num) hpc⟩

end HB
